import Mathlib

/-!
# Phoenix-RTOS kernel HAL

A shallow embedding of

* `hal/sparcv8leon3/gr716/console.c` : the GR716 UART console driver
  (`hal_consolePutch`, `_hal_consolePrint`, `hal_consolePrint`,
  `_hal_consoleCalcScaler`);
* `hal/ia32/arch/interrupts.h` : the reserved vector numbers and the
  handler record `intr_handler_t`.

Machine integers are natural numbers reduced modulo `2 ^ 32` where the C
arithmetic can wrap.  The UART is seen through its register accesses: every
load of the status register consumes the next value the device presents, and
every access is appended to a log.

The handler registry and the dispatcher are not in the sources; they are
modelled from the design text at the level of the `next`/`prev` links of the
records, and related to the ordered chains of the text by a ring invariant
that every call of `attach` and `detach` preserves.
-/

namespace PhoenixHal

/-! ## `hal/sparcv8leon3/gr716/console.c` -/

/-- UART status bit: `#define TX_FIFO_FULL (1 << 9)`. -/
def TX_FIFO_FULL : Nat := 1 <<< 9

/-- Register index `uart_data` of the anonymous enum (word offset `0x00`). -/
def uart_data : Nat := 0

/-- Register index `uart_status` of the anonymous enum (word offset `0x04`). -/
def uart_status : Nat := 1

/-- One access through the volatile pointer `halconsole_common.uart`:
a load of register `reg` that yielded `val`, or a store of `val` to `reg`. -/
inductive Access where
  | load (reg val : Nat)
  | store (reg val : Nat)
deriving DecidableEq, Repr

/-- The UART as the driver observes it: `status` lists the values the coming
loads of the status register will yield, `log` the accesses made so far
(oldest first). -/
structure Uart where
  status : List Nat
  log : List Access
deriving DecidableEq, Repr

/-- The loop `while ((*(halconsole_common.uart + uart_status) & TX_FIFO_FULL) != 0) { }`.
Each iteration loads the status register once.  The result is `none` when the
presented status values are used up with the bit still set, that is, when the
loop has not left yet. -/
def txWait : List Nat → List Access → Option Uart
  | [], _ => none
  | v :: rest, log =>
    if v &&& TX_FIFO_FULL ≠ 0 then txWait rest (log ++ [Access.load uart_status v])
    else some ⟨rest, log ++ [Access.load uart_status v]⟩

/-- Conversion of a `char` holding the byte `b` to the `u32` stored in the
data register (`*(uart + uart_data) = c`).  Plain `char` is signed on SPARC,
so bytes from `0x80` on are sign-extended; the low eight bits are `b`. -/
def charToU32 (b : Nat) : Nat :=
  if b < 128 then b else (b + (2 ^ 32 - 256)) % 2 ^ 32

/-- Function `hal_consolePutch(char c)`: wait, then store `c` to the data register. -/
def hal_consolePutch (c : Nat) (u : Uart) : Option Uart :=
  match txWait u.status u.log with
  | none => none
  | some u1 => some ⟨u1.status, u1.log ++ [Access.store uart_data (charToU32 c)]⟩

/-- Function `_hal_consolePrint(const char *s)`.  The text is the list of bytes
found from `s` on; a zero byte, or the end of the list (where the terminating
NUL sits), ends the `for` loop, after which the trailing wait loop runs. -/
def _hal_consolePrint : List Nat → Uart → Option Uart
  | [], u => txWait u.status u.log
  | c :: s, u =>
    if c ≠ 0 then
      match hal_consolePutch c u with
      | none => none
      | some u1 => _hal_consolePrint s u1
    else txWait u.status u.log

/-- Function `hal_consolePrint(int attr, const char *s)`.  The macros
`ATTR_BOLD`, `ATTR_USER`, `CONSOLE_BOLD`, `CONSOLE_CYAN` and `CONSOLE_NORMAL`
come from `hal/console.h` and are parameters here. -/
def hal_consolePrint (ATTR_BOLD ATTR_USER : Int)
    (CONSOLE_BOLD CONSOLE_CYAN CONSOLE_NORMAL : List Nat)
    (attr : Int) (s : List Nat) (u : Uart) : Option Uart :=
  let afterLead : Option Uart :=
    if attr = ATTR_BOLD then _hal_consolePrint CONSOLE_BOLD u
    else if attr ≠ ATTR_USER then _hal_consolePrint CONSOLE_CYAN u
    else some u
  match afterLead with
  | none => none
  | some u1 =>
    match _hal_consolePrint s u1 with
    | none => none
    | some u2 => _hal_consolePrint CONSOLE_NORMAL u2

/-- Function `_hal_consoleCalcScaler(u32 baud)`: `SYSCLK_FREQ / (baud * 8 + 7)`
in `u32` arithmetic.  `SYSCLK_FREQ` comes from `board_config.h` and is a
parameter; division by zero has no result. -/
def _hal_consoleCalcScaler (SYSCLK_FREQ baud : Nat) : Option Nat :=
  let divisor := (baud * 8 + 7) % 2 ^ 32
  if divisor = 0 then none else some ((SYSCLK_FREQ % 2 ^ 32) / divisor)

/-! ### Reading the log -/

/-- The bytes of a C string: those before its first NUL. -/
def cstr (s : List Nat) : List Nat := s.takeWhile (fun b => b ≠ 0)

/-- The words stored to the data register, in order. -/
def dataStores : List Access → List Nat
  | [] => []
  | Access.store reg val :: rest =>
    if reg = uart_data then val :: dataStores rest else dataStores rest
  | Access.load _ _ :: rest => dataStores rest

/-- The bytes handed to the transmitter: the low eight bits of each word
stored to the data register. -/
def dataBytes (log : List Access) : List Nat := (dataStores log).map (fun w => w % 256)

/-- The values yielded by loads of the status register, in order. -/
def statusLoads : List Access → List Nat
  | [] => []
  | Access.load reg val :: rest =>
    if reg = uart_status then val :: statusLoads rest else statusLoads rest
  | Access.store _ _ :: rest => statusLoads rest

/-- Number of presented status values that have `TX_FIFO_FULL` clear. -/
def clearCount (status : List Nat) : Nat :=
  status.countP (fun v => v &&& TX_FIFO_FULL = 0)

/-- The prefix `hal_consolePrint` sends for `attr`, as the text describes it. -/
def attrLead (ATTR_BOLD ATTR_USER : Int) (CONSOLE_BOLD CONSOLE_CYAN : List Nat)
    (attr : Int) : List Nat :=
  if attr = ATTR_BOLD then cstr CONSOLE_BOLD
  else if attr = ATTR_USER then []
  else cstr CONSOLE_CYAN

/-- Number of transmit waits `hal_consolePrint` goes through: one for each
byte sent and one at the end of each `_hal_consolePrint` call. -/
def printWaits (ATTR_BOLD ATTR_USER : Int) (CONSOLE_BOLD CONSOLE_CYAN CONSOLE_NORMAL : List Nat)
    (attr : Int) (s : List Nat) : Nat :=
  (if attr = ATTR_BOLD then (cstr CONSOLE_BOLD).length + 1
   else if attr ≠ ATTR_USER then (cstr CONSOLE_CYAN).length + 1
   else 0)
  + ((cstr s).length + 1) + ((cstr CONSOLE_NORMAL).length + 1)

/-! ## `hal/ia32/arch/interrupts.h` -/

/-- Vector of the periodic timer: `#define SYSTICK_IRQ 0`. -/
def SYSTICK_IRQ : Int := 0

/-- Vector of the system-call trap: `#define SYSCALL_IRQ 0x80`. -/
def SYSCALL_IRQ : Int := 0x80

/-- Vector of the inter-processor TLB signal: `#define TLB_IRQ 0x81`. -/
def TLB_IRQ : Int := 0x81

/-- The record `intr_handler_t`.  Pointers are addresses, `none` being `NULL`;
`f` is the address of the callback and `data` the opaque argument. -/
structure intr_handler_t where
  next : Option Nat
  prev : Option Nat
  n : Nat
  f : Nat
  data : Nat
deriving DecidableEq, Repr

/-! ## Handler registry and dispatcher

The header `interrupts.h` only declares the record type; the functions that
link records into the per-vector chains and walk them are modelled from the
design text. -/

/-- Modelled from the spec: the status a callback returns, "drawn from
`{HANDLED, NOT_MINE, ERROR}`" (the functions returning it are not in the
visible sources). -/
inductive Status where
  | HANDLED
  | NOT_MINE
  | ERROR
deriving DecidableEq, Repr

/-- Modelled from the spec: the error taxonomy of the registry (section 7).
`ConfigurationError` is the out-of-range vector, `CallerError` the double
attach or the detach of a record that is not attached. -/
inductive RegError where
  | ConfigurationError
  | CallerError
deriving DecidableEq, Repr

/-- Modelled from the spec: the registry state, "a fixed-size array of chain
headers" (`chain V` is the head of the chain of vector `V`, `none` when the
chain is empty) together with the caller-owned records, by address. -/
structure Registry where
  chain : Nat → Option Nat
  mem : Nat → intr_handler_t

/-- Modelled from the spec: the link updates of an insertion at the tail of
a non-empty circular chain with head `h` and tail `t` (part of `attach`, absent
from the sources): the record gets its vector and its two links, then the old
tail's `next` and the head's `prev` are pointed at it. -/
def linkTail (mem : Nat → intr_handler_t) (V R h t : Nat) : Nat → intr_handler_t :=
  let m1 := Function.update mem R { mem R with next := some h, prev := some t, n := V }
  let m2 := Function.update m1 t { m1 t with next := some R }
  Function.update m2 h { m2 h with prev := some R }

/-- Modelled from the spec: `attach(vector, record)` of the Handler Registry
(absent from the sources).  Fails with `ConfigurationError` on a vector above
`MAX_VECTOR` and with `CallerError` on a record whose links are not null (it
is already linked); otherwise it fixes the record's vector and inserts the
record at the tail of the circular chain, in constant time: the tail is the
head's `prev`.  A null link met inside the chain is reported as
`ConfigurationError` (inconsistent table). -/
def attach (MAX_VECTOR V R : Nat) (σ : Registry) : Except RegError Registry :=
  if MAX_VECTOR < V then Except.error RegError.ConfigurationError
  else if (σ.mem R).next ≠ none ∨ (σ.mem R).prev ≠ none then Except.error RegError.CallerError
  else
    match σ.chain V with
    | none =>
      Except.ok
        { chain := Function.update σ.chain V (some R),
          mem := Function.update σ.mem R
            { σ.mem R with next := some R, prev := some R, n := V } }
    | some h =>
      match (σ.mem h).prev with
      | none => Except.error RegError.ConfigurationError
      | some t => Except.ok { chain := σ.chain, mem := linkTail σ.mem V R h t }

/-- Modelled from the spec: the link updates of a removal (part of `detach`,
absent from the sources): the two neighbours, reached through the record's own
links, are pointed at each other, then the record's links are put back to
null, the detached state. -/
def unlink (mem : Nat → intr_handler_t) (R nx pv : Nat) : Nat → intr_handler_t :=
  let m1 := Function.update mem pv { mem pv with next := some nx }
  let m2 := Function.update m1 nx { m1 nx with prev := some pv }
  Function.update m2 R { m2 R with next := none, prev := none }

/-- Modelled from the spec: `detach(vector, record)` of the Handler Registry
(absent from the sources).  Fails with `ConfigurationError` on a vector above
`MAX_VECTOR` and with `CallerError` when the record is not linked or is linked
to another vector; otherwise it unlinks the record through its own two links,
in constant time, and moves the head on when the record was the head (emptying
the chain when it was the only member). -/
def detach (MAX_VECTOR V R : Nat) (σ : Registry) : Except RegError Registry :=
  if MAX_VECTOR < V then Except.error RegError.ConfigurationError
  else
    match (σ.mem R).next, (σ.mem R).prev with
    | some nx, some pv =>
      if (σ.mem R).n ≠ V then Except.error RegError.CallerError
      else
        let head := if σ.chain V = some R then (if nx = R then none else some nx) else σ.chain V
        Except.ok { chain := Function.update σ.chain V head, mem := unlink σ.mem R nx pv }
    | _, _ => Except.error RegError.CallerError

/-- Modelled from the spec: the traversal behind `forEach` (absent from the
sources), a walk of a circular chain from `cur` until the `next` link leads back to
`head`; `none` when the fuel runs out or a link is null. -/
def walk (mem : Nat → intr_handler_t) (head : Nat) : Nat → Nat → Option (List Nat)
  | 0, _ => none
  | fuel + 1, cur =>
    match (mem cur).next with
    | none => none
    | some nx =>
      if nx = head then some [cur]
      else
        match walk mem head fuel nx with
        | none => none
        | some l => some (cur :: l)

/-- Modelled from the spec: `forEach(vector, visit)` of the Handler Registry
(absent from the sources), as the finite sequence of the chain's members from
head to tail at the moment of traversal. -/
def forEach (fuel : Nat) (σ : Registry) (V : Nat) : Option (List Nat) :=
  match σ.chain V with
  | none => some []
  | some h => walk σ.mem h fuel h

/-- Modelled from the spec: what `dispatch` yields.  `outcome` is the
aggregated status, `errors` the number of handler-level `ERROR`s recorded,
`calls` the callbacks invoked, in order, each with the status it returned, and
`world` the state the callbacks left. -/
structure DispatchResult (W : Type) where
  outcome : Status
  errors : Nat
  calls : List (Nat × Status)
  world : W

/-- Modelled from the spec: the aggregation of the Dispatcher (absent from
the sources) over the members `forEach` produced.  Every callback is invoked
as `callback(vector, context, private_data)`; `exec f V data w` is the run of
the callback at address `f`, `w` being the state it may change (the machine
context and what its private data refers to).  The outcome is `HANDLED` when at
least one handler reported `HANDLED`, otherwise `NOT_MINE`; an `ERROR` is
counted and the walk goes on. -/
def runHandlers {W : Type} (exec : Nat → Nat → Nat → W → Status × W) (V : Nat)
    (mem : Nat → intr_handler_t) : List Nat → W → DispatchResult W
  | [], w => ⟨Status.NOT_MINE, 0, [], w⟩
  | r :: rs, w =>
    let p := exec (mem r).f V (mem r).data w
    let res := runHandlers exec V mem rs p.2
    ⟨if p.1 = Status.HANDLED then Status.HANDLED else res.outcome,
     res.errors + (if p.1 = Status.ERROR then 1 else 0),
     (r, p.1) :: res.calls,
     res.world⟩

/-- Modelled from the spec: `dispatch(vector, context) -> outcome` of the
Dispatcher (absent from the sources).  An out-of-range vector is the fatal
`ConfigurationError`; otherwise the chain is walked from head to tail.  The
result is `none` when the walk does not finish within `fuel` steps. -/
def dispatch {W : Type} (exec : Nat → Nat → Nat → W → Status × W) (MAX_VECTOR fuel V : Nat)
    (σ : Registry) (w : W) : Option (Except RegError (DispatchResult W)) :=
  if MAX_VECTOR < V then some (Except.error RegError.ConfigurationError)
  else
    match forEach fuel σ V with
    | none => none
    | some l => some (Except.ok (runHandlers exec V σ.mem l w))

/-- Path along the `next` links: from `a` through `xs` and on to `b`. -/
def Seg (mem : Nat → intr_handler_t) : Nat → List Nat → Nat → Prop
  | a, [], b => (mem a).next = some b
  | a, x :: xs, b => (mem a).next = some x ∧ Seg mem x xs b

/-- Last element of the non-empty list `a :: xs`. -/
def lastOf : Nat → List Nat → Nat
  | a, [] => a
  | _, x :: xs => lastOf x xs

/-- The chain of vector `V` holds exactly the records `L`, head first: the
header points to the head, the members are distinct, the `next` links run
through them and back to the head, and the `prev` link of the head is the
tail. -/
def ChainIs (σ : Registry) (V : Nat) : List Nat → Prop
  | [] => σ.chain V = none
  | h :: rest =>
    σ.chain V = some h ∧ (h :: rest).Nodup ∧ Seg σ.mem h rest h
      ∧ (σ.mem h).prev = some (lastOf h rest)

/-- First element of `xs`, or `q` when `xs` is empty. -/
def firstOf : List Nat → Nat → Nat
  | [], q => q
  | x :: _, _ => x

/-- Doubly linked run: the records `xs` are linked one to the next in both
directions, the first has `p` as its `prev` and the last has `q` as its
`next`. -/
def DL (mem : Nat → intr_handler_t) : Nat → List Nat → Nat → Prop
  | _, [], _ => True
  | p, x :: xs, q =>
    (mem x).prev = some p ∧ (mem x).next = some (firstOf xs q) ∧ DL mem x xs q

/-- The chain of vector `V` is the circular doubly linked ring of the distinct
records `L`, head first: the header points to the head, every member's `next`
is its successor and `prev` its predecessor, the tail and the head closing the
ring. -/
def Linked (σ : Registry) (V : Nat) : List Nat → Prop
  | [] => σ.chain V = none
  | h :: rest =>
    σ.chain V = some h ∧ (h :: rest).Nodup ∧ DL σ.mem (lastOf h rest) (h :: rest) h

/-- A call of the registration interface: `attach(V, R)` or `detach(V, R)`. -/
inductive RegOp where
  | attach (V R : Nat)
  | detach (V R : Nat)
deriving DecidableEq, Repr

/-- The registry together with the roll of its attached records: `roll V`
lists, oldest first, the records whose `attach` on `V` succeeded and that have
not been detached since. -/
structure Tracked where
  reg : Registry
  roll : Nat → List Nat

/-- One call of the registration interface.  A call that fails leaves the
registry as it was; a successful `attach(V, R)` enters `R` at the end of the roll
of `V`, a successful `detach(V, R)` strikes it. -/
def stepOp (MAX_VECTOR : Nat) (s : Tracked) : RegOp → Tracked
  | RegOp.attach V R =>
    match attach MAX_VECTOR V R s.reg with
    | Except.ok σ1 => ⟨σ1, Function.update s.roll V (s.roll V ++ [R])⟩
    | Except.error _ => s
  | RegOp.detach V R =>
    match detach MAX_VECTOR V R s.reg with
    | Except.ok σ1 => ⟨σ1, Function.update s.roll V ((s.roll V).erase R)⟩
    | Except.error _ => s

/-- The calls `ops`, in order, from the registry `σ0` with an empty roll. -/
def runOps (MAX_VECTOR : Nat) (ops : List RegOp) (σ0 : Registry) : Tracked :=
  ops.foldl (stepOp MAX_VECTOR) ⟨σ0, fun _ => []⟩

/-- Modelled from the spec: the Handler Registry seen as plain ordered
chains (section 4.1), without links.  `attach(V, R)` "inserts `R` at the tail
of `chain[V]`" and "fails if `V` is out of range, or if `R` is already linked
into any chain"; `detach(V, R)` "removes `R` from `chain[V]`" and "fails if `R`
is not currently linked to that vector's chain".  A failing call leaves the
chains as they were. -/
def specStep (MAX_VECTOR : Nat) (chains : Nat → List Nat) : RegOp → Nat → List Nat
  | RegOp.attach V R =>
    if V ≤ MAX_VECTOR ∧ ∀ U, U ≤ MAX_VECTOR → R ∉ chains U then
      Function.update chains V (chains V ++ [R])
    else chains
  | RegOp.detach V R =>
    if V ≤ MAX_VECTOR ∧ R ∈ chains V then Function.update chains V ((chains V).erase R)
    else chains

/-- Modelled from the spec: the ordered chains after the calls `ops`, every
chain being empty at system init. -/
def specRun (MAX_VECTOR : Nat) (ops : List RegOp) : Nat → List Nat :=
  ops.foldl (specStep MAX_VECTOR) (fun _ => [])

/-- The registry at system init: every chain empty, every record detached
(links null); the payload of the records is whatever the callers put there. -/
def IsInit (σ : Registry) : Prop :=
  (∀ V, σ.chain V = none) ∧ ∀ r, (σ.mem r).next = none ∧ (σ.mem r).prev = none

/-- The invariant of the registry: every chain is the ring of its roll, a
record on the roll of `V` carries the vector `V`, and a record on no roll is
detached. -/
def RegInv (s : Tracked) : Prop :=
  (∀ V, Linked s.reg V (s.roll V))
    ∧ (∀ V r, r ∈ s.roll V → (s.reg.mem r).n = V)
    ∧ (∀ r, (∀ V, r ∉ s.roll V) → (s.reg.mem r).next = none ∧ (s.reg.mem r).prev = none)

/-- The state a callback leaves: the second component of the run of the
callback of record `r` on vector `V` from the state `w`. -/
def stepWorld {W : Type} (exec : Nat → Nat → Nat → W → Status × W) (V : Nat)
    (mem : Nat → intr_handler_t) (w : W) (r : Nat) : W :=
  (exec (mem r).f V (mem r).data w).2

/-! ### Sample registries -/

/-- The registry at system init: every chain empty, every record detached.
The record at address `a` is given the callback address `a`. -/
def initRegistry : Registry :=
  { chain := fun _ => none, mem := fun a => ⟨none, none, 0, a, 0⟩ }

/-- A registry whose vector 5 has the chain `10, 20`. -/
def twoHandlers : Registry :=
  { chain := fun V => if V = 5 then some 10 else none,
    mem := fun a =>
      if a = 10 then ⟨some 20, some 20, 5, 10, 0⟩
      else if a = 20 then ⟨some 10, some 10, 5, 20, 0⟩
      else ⟨none, none, 0, a, 0⟩ }

/-- Sample callbacks over a counter: the one at address 10 returns `ERROR`, the
one at 20 `HANDLED`, any other `NOT_MINE`; each call bumps the counter. -/
def sampleExec : Nat → Nat → Nat → Nat → Status × Nat :=
  fun f _ _ w =>
    (if f = 10 then Status.ERROR else if f = 20 then Status.HANDLED else Status.NOT_MINE, w + 1)

/-- A sample history of registration calls: three records attached on vector
5 and one on vector 7, the middle one of vector 5 detached and attached again,
then a double attach and a detach of a record that is not attached, which both
fail. -/
def sampleOps : List RegOp :=
  [RegOp.attach 5 10, RegOp.attach 5 20, RegOp.attach 7 40, RegOp.attach 5 30,
   RegOp.detach 5 20, RegOp.attach 5 20, RegOp.attach 5 10, RegOp.detach 5 99]

/-- A sample history on the reserved vectors: two records on vector 0, one on
0x80 and one on 0x81. -/
def reservedOps : List RegOp :=
  [RegOp.attach 0 10, RegOp.attach 0x80 20, RegOp.attach 0x81 30, RegOp.attach 0 11]

/-! ## Theorems: console -/

theorem fifoFull_iff_bit9 (v : Nat) : v &&& TX_FIFO_FULL ≠ 0 ↔ v.testBit 9 = true := by
  unfold TX_FIFO_FULL
  rw [Nat.one_shiftLeft, Nat.and_two_pow]
  cases v.testBit 9 <;> simp

theorem txWait_split (pre : List Nat) (v : Nat) (post : List Nat) (log : List Access)
    (hpre : ∀ x ∈ pre, x &&& TX_FIFO_FULL ≠ 0) (hv : v &&& TX_FIFO_FULL = 0) :
    txWait (pre ++ v :: post) log
      = some ⟨post, log ++ (pre ++ [v]).map (Access.load uart_status)⟩ := by
  induction pre generalizing log with
  | nil => simp [txWait, hv]
  | cons x xs ih =>
    have hx : x &&& TX_FIFO_FULL ≠ 0 := hpre x (by simp)
    have hxs : ∀ y ∈ xs, y &&& TX_FIFO_FULL ≠ 0 := fun y hy => hpre y (by simp [hy])
    simp [txWait, hx, ih _ hxs]

theorem dataStores_append (a b : List Access) :
    dataStores (a ++ b) = dataStores a ++ dataStores b := by
  induction a with
  | nil => rfl
  | cons x xs ih =>
    cases x with
    | load reg val => simpa [dataStores] using ih
    | store reg val =>
      by_cases h : reg = uart_data <;> simp [dataStores, h, ih]

theorem statusLoads_append (a b : List Access) :
    statusLoads (a ++ b) = statusLoads a ++ statusLoads b := by
  induction a with
  | nil => rfl
  | cons x xs ih =>
    cases x with
    | store reg val => simpa [statusLoads] using ih
    | load reg val =>
      by_cases h : reg = uart_status <;> simp [statusLoads, h, ih]

theorem dataStores_map_load (l : List Nat) :
    dataStores (l.map (Access.load uart_status)) = [] := by
  induction l with
  | nil => rfl
  | cons x xs ih => simpa [dataStores] using ih

theorem statusLoads_map_load (l : List Nat) :
    statusLoads (l.map (Access.load uart_status)) = l := by
  induction l with
  | nil => rfl
  | cons x xs ih => simp [statusLoads, ih]

theorem charToU32_low_byte (b : Nat) (hb : b < 256) : charToU32 b % 256 = b := by
  unfold charToU32
  split <;> omega

theorem charToU32_lt (b : Nat) : charToU32 b < 2 ^ 32 := by
  unfold charToU32
  split <;> omega

/-- A wait that still has a status value with the bit clear ahead of it leaves,
having stored nothing, and uses up exactly one such value. -/
theorem txWait_ready (reads : List Nat) (log : List Access) (h : 0 < clearCount reads) :
    ∃ rest acc, txWait reads log = some ⟨rest, log ++ acc⟩ ∧ dataStores acc = []
      ∧ clearCount rest + 1 = clearCount reads := by
  induction reads generalizing log with
  | nil => simp [clearCount] at h
  | cons v rest ih =>
    by_cases hv : v &&& TX_FIFO_FULL = 0
    · refine ⟨rest, [Access.load uart_status v], ?_, rfl, ?_⟩
      · simp [txWait, hv]
      · simp [clearCount, hv]
    · have hc : clearCount (v :: rest) = clearCount rest := by simp [clearCount, hv]
      obtain ⟨r, acc, h1, h2, h3⟩ := ih (log ++ [Access.load uart_status v]) (hc ▸ h)
      refine ⟨r, Access.load uart_status v :: acc, ?_, ?_, ?_⟩
      · simp [txWait, hv, h1]
      · simpa [dataStores] using h2
      · omega

/-- A wait with no status value with the bit clear ahead of it does not leave. -/
theorem txWait_stuck (reads : List Nat) (log : List Access) (h : clearCount reads = 0) :
    txWait reads log = none := by
  induction reads generalizing log with
  | nil => rfl
  | cons v rest ih =>
    by_cases hv : v &&& TX_FIFO_FULL = 0
    · simp [clearCount, hv] at h
    · have hc : clearCount rest = 0 := by simpa [clearCount, hv] using h
      simp [txWait, hv, ih _ hc]

theorem hal_consolePutch_ready (c : Nat) (u : Uart) (h : 0 < clearCount u.status) :
    ∃ rest acc, hal_consolePutch c u = some ⟨rest, u.log ++ acc⟩
      ∧ dataStores acc = [charToU32 c] ∧ clearCount rest + 1 = clearCount u.status := by
  obtain ⟨rest, acc, h1, h2, h3⟩ := txWait_ready u.status u.log h
  refine ⟨rest, acc ++ [Access.store uart_data (charToU32 c)], ?_, ?_, h3⟩
  · simp [hal_consolePutch, h1]
  · simp [dataStores_append, h2, dataStores]

theorem _hal_consolePrint_ready (s : List Nat) (u : Uart)
    (h : (cstr s).length + 1 ≤ clearCount u.status) :
    ∃ rest acc, _hal_consolePrint s u = some ⟨rest, u.log ++ acc⟩
      ∧ dataStores acc = (cstr s).map charToU32
      ∧ clearCount rest + ((cstr s).length + 1) = clearCount u.status := by
  induction s generalizing u with
  | nil =>
    obtain ⟨rest, acc, h1, h2, h3⟩ := txWait_ready u.status u.log (by simpa [cstr] using h)
    exact ⟨rest, acc, by simp [_hal_consolePrint, h1], by simp [cstr, h2], by simpa [cstr] using h3⟩
  | cons c s ih =>
    by_cases hc : c = 0
    · subst hc
      obtain ⟨rest, acc, h1, h2, h3⟩ := txWait_ready u.status u.log (by simpa [cstr] using h)
      exact ⟨rest, acc, by simp [_hal_consolePrint, h1], by simp [cstr, h2],
        by simpa [cstr] using h3⟩
    · have hcs : cstr (c :: s) = c :: cstr s := by simp [cstr, hc]
      rw [hcs] at h ⊢
      simp only [List.length_cons] at h ⊢
      obtain ⟨r1, a1, p1, p2, p3⟩ := hal_consolePutch_ready c u (by omega)
      obtain ⟨r2, a2, q1, q2, q3⟩ := ih ⟨r1, u.log ++ a1⟩ (by simp only; omega)
      refine ⟨r2, a1 ++ a2, ?_, ?_, ?_⟩
      · simp [_hal_consolePrint, hc, p1, q1]
      · simp [dataStores_append, p2, q2]
      · simp only at q3; omega

theorem _hal_consolePrint_stuck (s : List Nat) (u : Uart)
    (h : clearCount u.status < (cstr s).length + 1) : _hal_consolePrint s u = none := by
  induction s generalizing u with
  | nil => simpa [_hal_consolePrint] using txWait_stuck u.status u.log (by simpa [cstr] using h)
  | cons c s ih =>
    by_cases hc : c = 0
    · subst hc
      simpa [_hal_consolePrint] using txWait_stuck u.status u.log (by simpa [cstr] using h)
    · have hcs : cstr (c :: s) = c :: cstr s := by simp [cstr, hc]
      rw [hcs] at h
      simp only [List.length_cons] at h
      by_cases h0 : clearCount u.status = 0
      · simp [_hal_consolePrint, hc, hal_consolePutch, txWait_stuck u.status u.log h0]
      · obtain ⟨r1, a1, p1, _, p3⟩ := hal_consolePutch_ready c u (by omega)
        have := ih ⟨r1, u.log ++ a1⟩ (by simp only; omega)
        simp [_hal_consolePrint, hc, p1, this]

theorem txWait_at (k : Nat) (reads : List Nat) (log : List Access)
    (hk : k < reads.length)
    (hfull : ∀ i, i < k → (reads.getD i 0).testBit 9 = true)
    (hclear : (reads.getD k 0).testBit 9 = false) :
    txWait reads log
      = some ⟨reads.drop (k + 1), log ++ (reads.take (k + 1)).map (Access.load uart_status)⟩ := by
  induction k generalizing reads log with
  | zero =>
    match reads, hk with
    | v :: rest, _ =>
      have hv : ¬ (v &&& TX_FIFO_FULL ≠ 0) := by
        rw [fifoFull_iff_bit9]; simpa using hclear
      simp [txWait, hv]
  | succ k ih =>
    match reads, hk with
    | v :: rest, hk =>
      have hv : v &&& TX_FIFO_FULL ≠ 0 := by
        rw [fifoFull_iff_bit9]; simpa using hfull 0 (by omega)
      have h1 : ∀ i, i < k → (rest.getD i 0).testBit 9 = true := fun i hi => by
        simpa using hfull (i + 1) (by omega)
      have h2 : (rest.getD k 0).testBit 9 = false := by simpa using hclear
      have h3 : k < rest.length := by simpa using hk
      simp [txWait, hv, ih rest _ h3 h1 h2]

theorem map_charToU32_low_bytes (l : List Nat) (h : ∀ b ∈ l, b < 256) :
    (l.map charToU32).map (fun w => w % 256) = l := by
  induction l with
  | nil => rfl
  | cons x xs ih =>
    have hx : x < 256 := h x (by simp)
    have hxs : ∀ b ∈ xs, b < 256 := fun b hb => h b (by simp [hb])
    simp [charToU32_low_byte x hx, ih hxs]

theorem cstr_lt (l : List Nat) (h : ∀ b ∈ l, b < 256) : ∀ b ∈ cstr l, b < 256 :=
  fun b hb => h b (List.takeWhile_subset _ hb)

/-- Word-level form of C1: the call returns once enough status values with the
bit clear are presented, and the words stored to the data register are the
converted characters of prefix, text and `CONSOLE_NORMAL`. -/
theorem hal_consolePrint_stores (ATTR_BOLD ATTR_USER : Int)
    (CONSOLE_BOLD CONSOLE_CYAN CONSOLE_NORMAL : List Nat) (attr : Int) (s : List Nat) (u : Uart)
    (hready : printWaits ATTR_BOLD ATTR_USER CONSOLE_BOLD CONSOLE_CYAN CONSOLE_NORMAL attr s
      ≤ clearCount u.status) :
    ∃ rest acc,
      hal_consolePrint ATTR_BOLD ATTR_USER CONSOLE_BOLD CONSOLE_CYAN CONSOLE_NORMAL attr s u
        = some ⟨rest, u.log ++ acc⟩
      ∧ dataStores acc
        = (attrLead ATTR_BOLD ATTR_USER CONSOLE_BOLD CONSOLE_CYAN attr ++ cstr s
            ++ cstr CONSOLE_NORMAL).map charToU32 := by
  -- the prefix
  have hpre : ∃ r0 a0, (if attr = ATTR_BOLD then _hal_consolePrint CONSOLE_BOLD u
        else if attr ≠ ATTR_USER then _hal_consolePrint CONSOLE_CYAN u else some u)
          = some ⟨r0, u.log ++ a0⟩
      ∧ dataStores a0
          = (attrLead ATTR_BOLD ATTR_USER CONSOLE_BOLD CONSOLE_CYAN attr).map charToU32
      ∧ ((cstr s).length + 1) + ((cstr CONSOLE_NORMAL).length + 1) ≤ clearCount r0 := by
    unfold printWaits at hready
    by_cases hb : attr = ATTR_BOLD
    · simp only [hb, if_true] at hready
      obtain ⟨r0, a0, e1, e2, e3⟩ := _hal_consolePrint_ready CONSOLE_BOLD u (by omega)
      exact ⟨r0, a0, by simp [hb, e1], by simp [attrLead, hb, e2], by omega⟩
    · by_cases hu : attr = ATTR_USER
      · subst hu
        simp only [hb, if_false, ne_eq, not_true_eq_false] at hready
        exact ⟨u.status, [], by simp [hb], by simp [attrLead, hb, dataStores], by omega⟩
      · simp only [hb, hu, if_false, ne_eq, not_false_eq_true, if_true] at hready
        obtain ⟨r0, a0, e1, e2, e3⟩ := _hal_consolePrint_ready CONSOLE_CYAN u (by omega)
        exact ⟨r0, a0, by simp [hb, hu, e1], by simp [attrLead, hb, hu, e2], by omega⟩
  obtain ⟨r0, a0, e1, e2, e3⟩ := hpre
  obtain ⟨r1, a1, f1, f2, f3⟩ := _hal_consolePrint_ready s ⟨r0, u.log ++ a0⟩ (by simp only; omega)
  obtain ⟨r2, a2, g1, g2, _⟩ :=
    _hal_consolePrint_ready CONSOLE_NORMAL ⟨r1, u.log ++ a0 ++ a1⟩ (by simp only at f3 ⊢; omega)
  dsimp only at f1 g1
  rw [List.append_assoc] at g1
  refine ⟨r2, a0 ++ a1 ++ a2, ?_, ?_⟩
  · simp only [hal_consolePrint, e1, f1, g1, List.append_assoc]
  · simp [dataStores_append, e2, f2, g2]

/-- When fewer status values with the bit clear are presented than there are
waits, the call does not return: `printWaits` is the exact number needed. -/
theorem hal_consolePrint_stuck (ATTR_BOLD ATTR_USER : Int)
    (CONSOLE_BOLD CONSOLE_CYAN CONSOLE_NORMAL : List Nat) (attr : Int) (s : List Nat) (u : Uart)
    (hfew : clearCount u.status
      < printWaits ATTR_BOLD ATTR_USER CONSOLE_BOLD CONSOLE_CYAN CONSOLE_NORMAL attr s) :
    hal_consolePrint ATTR_BOLD ATTR_USER CONSOLE_BOLD CONSOLE_CYAN CONSOLE_NORMAL attr s u
      = none := by
  have tail : ∀ u1 : Uart,
      clearCount u1.status < ((cstr s).length + 1) + ((cstr CONSOLE_NORMAL).length + 1) →
      (match _hal_consolePrint s u1 with
        | none => none
        | some u2 => _hal_consolePrint CONSOLE_NORMAL u2) = none := by
    intro u1 h1
    by_cases hs : clearCount u1.status < (cstr s).length + 1
    · simp [_hal_consolePrint_stuck s u1 hs]
    · obtain ⟨r1, a1, f1, _, f3⟩ := _hal_consolePrint_ready s u1 (by omega)
      have := _hal_consolePrint_stuck CONSOLE_NORMAL ⟨r1, u1.log ++ a1⟩ (by simp only; omega)
      simp [f1, this]
  unfold printWaits at hfew
  unfold hal_consolePrint
  by_cases hb : attr = ATTR_BOLD
  · simp only [hb, if_true] at hfew ⊢
    by_cases h0 : clearCount u.status < (cstr CONSOLE_BOLD).length + 1
    · simp [_hal_consolePrint_stuck CONSOLE_BOLD u h0]
    · obtain ⟨r0, a0, e1, _, e3⟩ := _hal_consolePrint_ready CONSOLE_BOLD u (by omega)
      simp only [e1]
      exact tail _ (by simp only; omega)
  · by_cases hu : attr = ATTR_USER
    · subst hu
      simp only [hb, if_false, ne_eq, not_true_eq_false] at hfew ⊢
      exact tail _ (by omega)
    · simp only [hb, hu, if_false, ne_eq, not_false_eq_true, if_true] at hfew ⊢
      by_cases h0 : clearCount u.status < (cstr CONSOLE_CYAN).length + 1
      · simp [_hal_consolePrint_stuck CONSOLE_CYAN u h0]
      · obtain ⟨r0, a0, e1, _, e3⟩ := _hal_consolePrint_ready CONSOLE_CYAN u (by omega)
        simp only [e1]
        exact tail _ (by simp only; omega)

/-- Claim C1.  For every `attr` and every text `s` (bytes, NUL-terminated), when
each transmit wait gets to see `TX_FIFO_FULL` clear (the device presents at
least `printWaits` status values with the bit clear), `hal_consolePrint(attr, s)`
returns and the bytes it stores to the data register are, in order,
`P(attr) ++ (bytes of s before its first NUL) ++ CONSOLE_NORMAL`, with
`P(attr)` being `CONSOLE_BOLD` for `ATTR_BOLD`, empty for `ATTR_USER` and
`CONSOLE_CYAN` otherwise. -/
theorem hal_consolePrint_bytes (ATTR_BOLD ATTR_USER : Int)
    (CONSOLE_BOLD CONSOLE_CYAN CONSOLE_NORMAL : List Nat) (attr : Int) (s : List Nat) (u : Uart)
    (hbold : ∀ b ∈ CONSOLE_BOLD, b < 256) (hcyan : ∀ b ∈ CONSOLE_CYAN, b < 256)
    (hnormal : ∀ b ∈ CONSOLE_NORMAL, b < 256) (hs : ∀ b ∈ s, b < 256)
    (hready : printWaits ATTR_BOLD ATTR_USER CONSOLE_BOLD CONSOLE_CYAN CONSOLE_NORMAL attr s
      ≤ clearCount u.status) :
    ∃ rest acc,
      hal_consolePrint ATTR_BOLD ATTR_USER CONSOLE_BOLD CONSOLE_CYAN CONSOLE_NORMAL attr s u
        = some ⟨rest, u.log ++ acc⟩
      ∧ dataBytes acc
        = (if attr = ATTR_BOLD then cstr CONSOLE_BOLD
            else if attr = ATTR_USER then [] else cstr CONSOLE_CYAN)
          ++ cstr s ++ cstr CONSOLE_NORMAL := by
  obtain ⟨rest, acc, h1, h2⟩ := hal_consolePrint_stores ATTR_BOLD ATTR_USER CONSOLE_BOLD
    CONSOLE_CYAN CONSOLE_NORMAL attr s u hready
  refine ⟨rest, acc, h1, ?_⟩
  have hP : ∀ b ∈ attrLead ATTR_BOLD ATTR_USER CONSOLE_BOLD CONSOLE_CYAN attr, b < 256 := by
    unfold attrLead
    split
    · exact cstr_lt _ hbold
    · split
      · simp
      · exact cstr_lt _ hcyan
  have hall : ∀ b ∈ attrLead ATTR_BOLD ATTR_USER CONSOLE_BOLD CONSOLE_CYAN attr ++ cstr s
      ++ cstr CONSOLE_NORMAL, b < 256 := by
    intro b hb
    simp only [List.mem_append] at hb
    rcases hb with (hb | hb) | hb
    · exact hP b hb
    · exact cstr_lt _ hs b hb
    · exact cstr_lt _ hnormal b hb
  unfold dataBytes
  rw [h2, map_charToU32_low_bytes _ hall]
  rfl

theorem hal_consolePrint_bytes_witness :
    ∃ rest acc,
      hal_consolePrint 15 7 [27, 91, 49, 109] [27, 91, 51, 54, 109] [27, 91, 48, 109] 15
          [72, 105, 200, 0, 33] ⟨[512, 0, 0, 0, 512, 512, 0, 0, 0, 0, 0, 0, 0, 0, 0, 0, 0], []⟩
        = some ⟨rest, [] ++ acc⟩
      ∧ dataBytes acc = [27, 91, 49, 109] ++ [72, 105, 200] ++ [27, 91, 48, 109] :=
  hal_consolePrint_bytes 15 7 [27, 91, 49, 109] [27, 91, 51, 54, 109] [27, 91, 48, 109] 15
    [72, 105, 200, 0, 33] ⟨[512, 0, 0, 0, 512, 512, 0, 0, 0, 0, 0, 0, 0, 0, 0, 0, 0], []⟩
    (by decide) (by decide) (by decide) (by decide) (by decide)

/-- Claim C2.  `hal_consolePutch(c)` busy-waits on a full transmit queue: when
the first presented status value with `TX_FIFO_FULL` (bit 9) clear sits at
position `k`, the call returns having made exactly the `k + 1` status loads of
the values at positions `0 .. k`, followed by one single store, of `c`, to the
data register; no store precedes the load that shows the bit clear. -/
theorem hal_consolePutch_busy_wait (c : Nat) (reads : List Nat) (log : List Access) (k : Nat)
    (hk : k < reads.length)
    (hfull : ∀ i, i < k → (reads.getD i 0).testBit 9 = true)
    (hclear : (reads.getD k 0).testBit 9 = false) :
    ∃ acc, hal_consolePutch c ⟨reads, log⟩ = some ⟨reads.drop (k + 1), log ++ acc⟩
      ∧ acc = (reads.take (k + 1)).map (Access.load uart_status)
                ++ [Access.store uart_data (charToU32 c)]
      ∧ (statusLoads acc).length = k + 1
      ∧ dataStores acc = [charToU32 c] := by
  refine ⟨_, ?_, rfl, ?_, ?_⟩
  · simp [hal_consolePutch, txWait_at k reads log hk hfull hclear]
  · simp only [statusLoads_append, statusLoads_map_load, statusLoads, List.append_nil,
      List.length_take]
    omega
  · rw [dataStores_append, dataStores_map_load]
    simp [dataStores]

theorem hal_consolePutch_busy_wait_witness :
    ∃ acc, hal_consolePutch 65 ⟨[512, 0x200, 0x204, 6, 512], []⟩ = some ⟨[512], [] ++ acc⟩
      ∧ acc = [Access.load uart_status 512, Access.load uart_status 0x200,
                Access.load uart_status 0x204, Access.load uart_status 6,
                Access.store uart_data 65]
      ∧ (statusLoads acc).length = 3 + 1
      ∧ dataStores acc = [charToU32 65] :=
  hal_consolePutch_busy_wait 65 [512, 0x200, 0x204, 6, 512] [] 3 (by decide)
    (by intro i hi; interval_cases i <;> decide) (by decide)

/-- Claim C7 (the code at the failing input).  The status value `0x00100000`
has `TX_FIFO_FULL` clear while it reports a transmit FIFO that is not empty
(transmitter count 1, "FIFO empty" bit clear).  `hal_consolePutch` stores its
byte right after this single load, and `_hal_consolePrint` returns right after
it: both loops leave as soon as the FIFO is not full, not when it is empty. -/
theorem consoleWait_leaves_on_not_full :
    hal_consolePutch 65 ⟨[0x00100000], []⟩
        = some ⟨[], [Access.load uart_status 0x00100000, Access.store uart_data 65]⟩
      ∧ _hal_consolePrint [] ⟨[0x00100000], []⟩
        = some ⟨[], [Access.load uart_status 0x00100000]⟩ := by
  constructor <;> decide

/-- Claim C8.  For every `baud` (in particular every 32-bit value, `0` and the
values whose product with 8 wraps included) the divisor `(baud * 8 + 7) mod 2^32`
is not zero, so `_hal_consoleCalcScaler` always divides and returns a result. -/
theorem _hal_consoleCalcScaler_divisor_ne_zero (SYSCLK_FREQ baud : Nat) :
    (baud * 8 + 7) % 2 ^ 32 ≠ 0
      ∧ _hal_consoleCalcScaler SYSCLK_FREQ baud
          = some ((SYSCLK_FREQ % 2 ^ 32) / ((baud * 8 + 7) % 2 ^ 32)) := by
  have h : (baud * 8 + 7) % 2 ^ 32 ≠ 0 := by omega
  exact ⟨h, by simp only [_hal_consoleCalcScaler, h, if_false]⟩

/-- Claim C9.  For a 32-bit `SYSCLK_FREQ` and bauds with `8 * baud + 7 < 2^32`,
`_hal_consoleCalcScaler` returns the exact floor of `SYSCLK_FREQ / (8 * baud + 7)`
(the `q` with `q * d ≤ SYSCLK_FREQ < (q + 1) * d`), and it is non-increasing:
`baud1 ≤ baud2` gives a result for `baud2` not above the one for `baud1`. -/
theorem _hal_consoleCalcScaler_floor_antitone (SYSCLK_FREQ baud1 baud2 : Nat)
    (hF : SYSCLK_FREQ < 2 ^ 32) (hrange : 8 * baud2 + 7 < 2 ^ 32) (hle : baud1 ≤ baud2) :
    ∃ q1 q2, _hal_consoleCalcScaler SYSCLK_FREQ baud1 = some q1
      ∧ _hal_consoleCalcScaler SYSCLK_FREQ baud2 = some q2
      ∧ q1 = SYSCLK_FREQ / (8 * baud1 + 7) ∧ q2 = SYSCLK_FREQ / (8 * baud2 + 7)
      ∧ (q1 * (8 * baud1 + 7) ≤ SYSCLK_FREQ ∧ SYSCLK_FREQ < (q1 + 1) * (8 * baud1 + 7))
      ∧ (q2 * (8 * baud2 + 7) ≤ SYSCLK_FREQ ∧ SYSCLK_FREQ < (q2 + 1) * (8 * baud2 + 7))
      ∧ q2 ≤ q1 := by
  have hd1 : (baud1 * 8 + 7) % 2 ^ 32 = 8 * baud1 + 7 := by omega
  have hd2 : (baud2 * 8 + 7) % 2 ^ 32 = 8 * baud2 + 7 := by omega
  have hFm : SYSCLK_FREQ % 2 ^ 32 = SYSCLK_FREQ := Nat.mod_eq_of_lt hF
  have floorOK : ∀ d : Nat, 0 < d →
      SYSCLK_FREQ / d * d ≤ SYSCLK_FREQ ∧ SYSCLK_FREQ < (SYSCLK_FREQ / d + 1) * d := by
    intro d hd
    refine ⟨Nat.div_mul_le_self _ _, ?_⟩
    rw [Nat.mul_comm]
    exact Nat.lt_mul_div_succ SYSCLK_FREQ hd
  refine ⟨SYSCLK_FREQ / (8 * baud1 + 7), SYSCLK_FREQ / (8 * baud2 + 7), ?_, ?_, rfl, rfl,
    floorOK _ (by omega), floorOK _ (by omega), ?_⟩
  · have h0 : ¬ (8 * baud1 + 7 = 0) := by omega
    simp only [_hal_consoleCalcScaler, hd1, hFm, h0, if_false]
  · have h0 : ¬ (8 * baud2 + 7 = 0) := by omega
    simp only [_hal_consoleCalcScaler, hd2, hFm, h0, if_false]
  · exact Nat.div_le_div_left (by omega) (by omega)

theorem _hal_consoleCalcScaler_floor_antitone_witness :
    ∃ q1 q2, _hal_consoleCalcScaler 50000000 9600 = some q1
      ∧ _hal_consoleCalcScaler 50000000 115200 = some q2
      ∧ q1 = 50000000 / (8 * 9600 + 7) ∧ q2 = 50000000 / (8 * 115200 + 7)
      ∧ (q1 * (8 * 9600 + 7) ≤ 50000000 ∧ 50000000 < (q1 + 1) * (8 * 9600 + 7))
      ∧ (q2 * (8 * 115200 + 7) ≤ 50000000 ∧ 50000000 < (q2 + 1) * (8 * 115200 + 7))
      ∧ q2 ≤ q1 :=
  _hal_consoleCalcScaler_floor_antitone 50000000 9600 115200 (by norm_num) (by norm_num)
    (by norm_num)

/-! ## Theorems: registry and dispatcher -/

theorem lastOf_mem (a : Nat) (xs : List Nat) : lastOf a xs ∈ a :: xs := by
  induction xs generalizing a with
  | nil => simp [lastOf]
  | cons x xs ih =>
    have := ih x
    simp only [lastOf]
    exact List.mem_cons_of_mem _ this

theorem lastOf_snoc (a : Nat) (xs : List Nat) (r : Nat) : lastOf a (xs ++ [r]) = r := by
  induction xs generalizing a with
  | nil => rfl
  | cons x xs ih => simpa [lastOf] using ih x

/-- A walk along a path that leads back to the head yields the path. -/
theorem walk_seg (mem : Nat → intr_handler_t) (h : Nat) (xs : List Nat) (a fuel : Nat)
    (hseg : Seg mem a xs h) (hh : h ∉ xs) (hfuel : xs.length + 1 ≤ fuel) :
    walk mem h fuel a = some (a :: xs) := by
  induction xs generalizing a fuel with
  | nil =>
    obtain ⟨k, rfl⟩ : ∃ k, fuel = k + 1 := ⟨fuel - 1, by omega⟩
    simp only [Seg] at hseg
    simp [walk, hseg]
  | cons x xs ih =>
    obtain ⟨k, rfl⟩ : ∃ k, fuel = k + 1 := ⟨fuel - 1, by omega⟩
    obtain ⟨h1, h2⟩ := hseg
    have hx : x ≠ h := fun e => hh (by simp [e])
    have hxs : h ∉ xs := fun e => hh (by simp [e])
    have := ih x k h2 hxs (by simpa using hfuel)
    simp [walk, h1, hx, this]

theorem forEach_chainIs (σ : Registry) (V : Nat) (L : List Nat) (fuel : Nat)
    (hL : ChainIs σ V L) (hfuel : L.length ≤ fuel) : forEach fuel σ V = some L := by
  cases L with
  | nil => simp only [ChainIs] at hL; simp [forEach, hL]
  | cons h rest =>
    obtain ⟨h1, h2, h3, _⟩ := hL
    have hh : h ∉ rest := (List.nodup_cons.mp h2).1
    simp only [forEach, h1]
    exact walk_seg σ.mem h rest h fuel h3 hh (by simpa using hfuel)

/-- The links after an insertion at the tail. -/
theorem linkTail_links (mem : Nat → intr_handler_t) (V R h t : Nat) (hRh : R ≠ h) (hRt : R ≠ t) :
    (∀ x, (linkTail mem V R h t x).next
        = if x = t then some R else if x = R then some h else (mem x).next)
      ∧ (∀ x, (linkTail mem V R h t x).prev
        = if x = h then some R else if x = R then some t else (mem x).prev)
      ∧ (∀ x, x ≠ R → x ≠ h → x ≠ t → linkTail mem V R h t x = mem x) := by
  refine ⟨?_, ?_, ?_⟩
  · intro x
    by_cases hxh : x = h
    · subst hxh
      by_cases hxt : x = t
      · subst hxt
        simp [linkTail, Function.update_apply]
      · simp [linkTail, Function.update_apply, hxt, Ne.symm hRh]
    · by_cases hxt : x = t
      · subst hxt
        simp [linkTail, Function.update_apply, hxh]
      · by_cases hxR : x = R
        · subst hxR
          simp [linkTail, Function.update_apply, hxh, hxt]
        · simp [linkTail, Function.update_apply, hxh, hxt, hxR]
  · intro x
    by_cases hxh : x = h
    · subst hxh
      simp [linkTail, Function.update_apply]
    · by_cases hxt : x = t
      · subst hxt
        simp [linkTail, Function.update_apply, hxh, Ne.symm hRt]
      · by_cases hxR : x = R
        · subst hxR
          simp [linkTail, Function.update_apply, hxh, hxt]
        · simp [linkTail, Function.update_apply, hxh, hxt, hxR]
  · intro x h1 h2 h3
    simp [linkTail, Function.update_apply, h1, h2, h3]

theorem attach_empty (MAX_VECTOR V R : Nat) (σ : Registry) (hV : V ≤ MAX_VECTOR)
    (hdet : (σ.mem R).next = none ∧ (σ.mem R).prev = none) (hc : σ.chain V = none) :
    attach MAX_VECTOR V R σ = Except.ok
      { chain := Function.update σ.chain V (some R),
        mem := Function.update σ.mem R
          { σ.mem R with next := some R, prev := some R, n := V } } := by
  have hV1 : ¬ MAX_VECTOR < V := by omega
  simp only [attach, hV1, hdet, hc, if_false, ne_eq, not_true_eq_false, or_self]

theorem attach_nonempty (MAX_VECTOR V R h t : Nat) (σ : Registry) (hV : V ≤ MAX_VECTOR)
    (hdet : (σ.mem R).next = none ∧ (σ.mem R).prev = none) (hc : σ.chain V = some h)
    (ht : (σ.mem h).prev = some t) :
    attach MAX_VECTOR V R σ = Except.ok { chain := σ.chain, mem := linkTail σ.mem V R h t } := by
  have hV1 : ¬ MAX_VECTOR < V := by omega
  simp only [attach, hV1, hdet, hc, ht, if_false, ne_eq, not_true_eq_false, or_self]

theorem runHandlers_calls {W : Type} (exec : Nat → Nat → Nat → W → Status × W) (V : Nat)
    (mem : Nat → intr_handler_t) (l : List Nat) (w : W) :
    (runHandlers exec V mem l w).calls.map Prod.fst = l := by
  induction l generalizing w with
  | nil => rfl
  | cons r rs ih => simp [runHandlers, ih]

theorem runHandlers_outcome {W : Type} (exec : Nat → Nat → Nat → W → Status × W) (V : Nat)
    (mem : Nat → intr_handler_t) (l : List Nat) (w : W) :
    ((runHandlers exec V mem l w).outcome = Status.HANDLED
        ↔ ∃ c ∈ (runHandlers exec V mem l w).calls, c.2 = Status.HANDLED)
      ∧ ((runHandlers exec V mem l w).outcome = Status.HANDLED
        ∨ (runHandlers exec V mem l w).outcome = Status.NOT_MINE) := by
  induction l generalizing w with
  | nil => simp [runHandlers]
  | cons r rs ih =>
    obtain ⟨ih1, ih2⟩ := ih (exec (mem r).f V (mem r).data w).2
    by_cases hp : (exec (mem r).f V (mem r).data w).1 = Status.HANDLED
    · simp [runHandlers, hp]
    · simp only [runHandlers, hp, if_false, List.mem_cons, exists_eq_or_imp, false_or]
      exact ⟨ih1, ih2⟩

theorem walk_congr (m1 m2 : Nat → intr_handler_t) (hnext : ∀ x, (m1 x).next = (m2 x).next)
    (head fuel cur : Nat) : walk m1 head fuel cur = walk m2 head fuel cur := by
  induction fuel generalizing cur with
  | zero => rfl
  | succ k ih => simp only [walk, hnext cur, ih]

theorem seg_congr (m1 m2 : Nat → intr_handler_t) (hnext : ∀ x, (m1 x).next = (m2 x).next)
    (a : Nat) (xs : List Nat) (b : Nat) (h : Seg m1 a xs b) : Seg m2 a xs b := by
  induction xs generalizing a with
  | nil => simpa [Seg, hnext a] using h
  | cons x xs ih => exact ⟨by simpa [hnext a] using h.1, ih x h.2⟩

theorem setVector_eta (r : intr_handler_t) (V : Nat) (a b : Option Nat)
    (ha : r.next = a) (hb : r.prev = b) :
    ({ next := a, prev := b, n := V, f := r.f, data := r.data } : intr_handler_t)
      = { r with n := V } := by
  subst ha; subst hb; rfl

theorem setNext_eta (r : intr_handler_t) (a : Option Nat) (ha : r.next = a) :
    ({ r with next := a } : intr_handler_t) = r := by
  subst ha; rfl

theorem setPrev_eta (r : intr_handler_t) (b : Option Nat) (hb : r.prev = b) :
    ({ r with prev := b } : intr_handler_t) = r := by
  subst hb; rfl

/-- Removing the record just inserted at the tail puts every link back: only
the record's own vector field keeps the value written by the insertion. -/
theorem unlink_linkTail (mem : Nat → intr_handler_t) (V R h t : Nat)
    (hRh : R ≠ h) (hRt : R ≠ t)
    (hdet : (mem R).next = none ∧ (mem R).prev = none)
    (hp : (mem h).prev = some t) (hn : (mem t).next = some h) :
    unlink (linkTail mem V R h t) R h t = Function.update mem R { mem R with n := V } := by
  funext x
  by_cases hxR : x = R
  · subst hxR
    simp only [unlink, linkTail, Function.update_apply, hRh, hRt, if_true, if_false]
    exact setVector_eta (mem x) V none none hdet.1 hdet.2
  · by_cases hxh : x = h
    · subst hxh
      by_cases hxt : x = t
      · subst hxt
        simp only [unlink, linkTail, Function.update_apply, hxR, hRh, if_true, if_false]
        exact setVector_eta (mem x) (mem x).n (some x) (some x) hn hp
      · simp only [unlink, linkTail, Function.update_apply, hxR, hxt, Ne.symm hxt, hRh, hRt,
          if_true, if_false]
        exact setPrev_eta (mem x) _ hp
    · by_cases hxt : x = t
      · subst hxt
        simp only [unlink, linkTail, Function.update_apply, hxR, hxh, Ne.symm hxh, hRh, hRt,
          if_true, if_false]
        exact setNext_eta (mem x) _ hn
      · simp only [unlink, linkTail, Function.update_apply, hxR, hxh, hxt, if_false]

theorem detach_linked (MAX_VECTOR V R nx pv : Nat) (σ : Registry) (hV : V ≤ MAX_VECTOR)
    (hnx : (σ.mem R).next = some nx) (hpv : (σ.mem R).prev = some pv) (hn : (σ.mem R).n = V) :
    detach MAX_VECTOR V R σ = Except.ok
      { chain := Function.update σ.chain V
          (if σ.chain V = some R then (if nx = R then none else some nx) else σ.chain V),
        mem := unlink σ.mem R nx pv } := by
  have hV1 : ¬ MAX_VECTOR < V := by omega
  simp only [detach, hV1, hnx, hpv, hn, if_false, ne_eq, not_true_eq_false]

/-- Removing the only member of a chain puts its links back to null. -/
theorem unlink_single (mem : Nat → intr_handler_t) (V R : Nat)
    (hdet : (mem R).next = none ∧ (mem R).prev = none) :
    unlink (Function.update mem R { mem R with next := some R, prev := some R, n := V }) R R R
      = Function.update mem R { mem R with n := V } := by
  funext x
  by_cases hxR : x = R
  · subst hxR
    simp only [unlink, Function.update_apply, if_true]
    exact setVector_eta (mem x) V none none hdet.1 hdet.2
  · simp only [unlink, Function.update_apply, hxR, if_false]

theorem seg_last (mem : Nat → intr_handler_t) (a : Nat) (xs : List Nat) (b : Nat)
    (h : Seg mem a xs b) : (mem (lastOf a xs)).next = some b := by
  induction xs generalizing a with
  | nil => exact h
  | cons x xs ih => exact ih x h.2

/-- A chain that holds the records `h :: rest` is circular at its seam. -/
theorem chainIs_seam (σ : Registry) (V h : Nat) (rest : List Nat)
    (hL : ChainIs σ V (h :: rest)) :
    ∃ t, (σ.mem h).prev = some t ∧ (σ.mem t).next = some h :=
  ⟨lastOf h rest, hL.2.2.2, seg_last σ.mem h rest h hL.2.2.1⟩

/-- Claim C5.  For a valid vector `V` and a record `R` that is not attached
(its links are null), `attach(V, R)` followed at once by `detach(V, R)`
succeeds and restores the registry: the chain headers are as before, every
record other than `R` is as before (so no neighbour keeps a link to `R`), the
links of `R` are null again, and every chain has its prior members in their
prior order.  The chain of `V` is assumed circular at its seam: the tail, which
is the head's `prev`, has the head as its `next`. -/
theorem attach_detach_restores (MAX_VECTOR V R : Nat) (σ : Registry)
    (hV : V ≤ MAX_VECTOR) (hdet : (σ.mem R).next = none ∧ (σ.mem R).prev = none)
    (hring : ∀ h, σ.chain V = some h →
      ∃ t, (σ.mem h).prev = some t ∧ (σ.mem t).next = some h) :
    ∃ σ1 σ2, attach MAX_VECTOR V R σ = Except.ok σ1
      ∧ detach MAX_VECTOR V R σ1 = Except.ok σ2
      ∧ σ2.chain = σ.chain
      ∧ (∀ r, r ≠ R → σ2.mem r = σ.mem r)
      ∧ σ2.mem R = { σ.mem R with n := V }
      ∧ ((σ2.mem R).next = none ∧ (σ2.mem R).prev = none)
      ∧ (∀ fuel U, forEach fuel σ2 U = forEach fuel σ U)
      ∧ (∀ U L, ChainIs σ U L → ChainIs σ2 U L) := by
  -- both operations succeed and leave the state below
  have key : ∃ σ1, attach MAX_VECTOR V R σ = Except.ok σ1
      ∧ detach MAX_VECTOR V R σ1 = Except.ok
          { chain := σ.chain, mem := Function.update σ.mem R { σ.mem R with n := V } } := by
    cases hc : σ.chain V with
    | none =>
      refine ⟨_, attach_empty MAX_VECTOR V R σ hV hdet hc, ?_⟩
      rw [detach_linked MAX_VECTOR V R R R _ hV (by simp) (by simp) (by simp)]
      have hchain : Function.update (Function.update σ.chain V (some R)) V
          (if Function.update σ.chain V (some R) V = some R
            then (if R = R then none else some R)
            else Function.update σ.chain V (some R) V) = σ.chain := by
        funext U
        by_cases hU : U = V
        · subst hU; simp [hc]
        · simp [Function.update_apply, hU]
      rw [hchain, unlink_single σ.mem V R hdet]
    | some h =>
      obtain ⟨t, hp, hn⟩ := hring h hc
      have hRh : R ≠ h := fun e => by rw [← e, hdet.2] at hp; exact Option.noConfusion hp
      have hRt : R ≠ t := fun e => by rw [← e, hdet.1] at hn; exact Option.noConfusion hn
      obtain ⟨ln, lp, _⟩ := linkTail_links σ.mem V R h t hRh hRt
      have hnR : (linkTail σ.mem V R h t R).n = V := by
        simp [linkTail, Function.update_apply, hRh, hRt]
      refine ⟨_, attach_nonempty MAX_VECTOR V R h t σ hV hdet hc hp, ?_⟩
      rw [detach_linked MAX_VECTOR V R h t _ hV (by simp [ln, hRt]) (by simp [lp, hRh]) hnR]
      have hne : σ.chain V ≠ some R := by
        rw [hc]; exact fun e => hRh (Option.some.inj e).symm
      have hchain : Function.update σ.chain V
          (if σ.chain V = some R then (if h = R then none else some h) else σ.chain V)
            = σ.chain := by
        simp only [hne, if_false, Function.update_eq_self]
      rw [hchain, unlink_linkTail σ.mem V R h t hRh hRt hdet hp hn]
  obtain ⟨σ1, e1, e2⟩ := key
  have hnext : ∀ x, ((Function.update σ.mem R { σ.mem R with n := V }) x).next
      = (σ.mem x).next := by
    intro x
    by_cases hx : x = R
    · subst hx; simp
    · simp [Function.update_apply, hx]
  have hprev : ∀ x, ((Function.update σ.mem R { σ.mem R with n := V }) x).prev
      = (σ.mem x).prev := by
    intro x
    by_cases hx : x = R
    · subst hx; simp
    · simp [Function.update_apply, hx]
  refine ⟨σ1, _, e1, e2, rfl, ?_, ?_, ?_, ?_, ?_⟩
  · intro r hr
    simp [Function.update_apply, hr]
  · simp
  · exact ⟨by simpa using hdet.1, by simpa using hdet.2⟩
  · intro fuel U
    simp only [forEach]
    cases σ.chain U with
    | none => rfl
    | some h => exact walk_congr _ _ hnext h fuel h
  · intro U L hL
    cases L with
    | nil => exact hL
    | cons h rest =>
      obtain ⟨a1, a2, a3, a4⟩ := hL
      exact ⟨a1, a2, seg_congr _ _ (fun x => (hnext x).symm) h rest h a3,
        (hprev h).trans a4⟩

theorem attach_detach_restores_witness :
    ∃ σ1 σ2, attach 255 5 30 twoHandlers = Except.ok σ1
      ∧ detach 255 5 30 σ1 = Except.ok σ2
      ∧ σ2.chain = twoHandlers.chain
      ∧ (∀ r, r ≠ 30 → σ2.mem r = twoHandlers.mem r)
      ∧ σ2.mem 30 = { twoHandlers.mem 30 with n := 5 }
      ∧ ((σ2.mem 30).next = none ∧ (σ2.mem 30).prev = none)
      ∧ (∀ fuel U, forEach fuel σ2 U = forEach fuel twoHandlers U)
      ∧ (∀ U L, ChainIs twoHandlers U L → ChainIs σ2 U L) :=
  attach_detach_restores 255 5 30 twoHandlers (by decide) ⟨rfl, rfl⟩
    (fun h hh => by
      have h10 : h = 10 := (Option.some.inj hh).symm
      subst h10
      exact ⟨20, rfl, rfl⟩)


/-! ## Theorems: the ring invariant -/

theorem firstOf_append (xs ys : List Nat) (q : Nat) :
    firstOf (xs ++ ys) q = firstOf xs (firstOf ys q) := by
  cases xs <;> rfl

theorem lastOf_append (p : Nat) (xs ys : List Nat) :
    lastOf p (xs ++ ys) = lastOf (lastOf p xs) ys := by
  induction xs generalizing p with
  | nil => rfl
  | cons x xs ih => simpa [lastOf] using ih x

theorem firstOf_mem (xs : List Nat) (q : Nat) (h : xs ≠ []) : firstOf xs q ∈ xs := by
  cases xs with
  | nil => exact absurd rfl h
  | cons x xs => simp [firstOf]

theorem lastOf_mem_of_ne (p : Nat) (xs : List Nat) (h : xs ≠ []) : lastOf p xs ∈ xs := by
  cases xs with
  | nil => exact absurd rfl h
  | cons x xs => exact lastOf_mem x xs

theorem DL_append (mem : Nat → intr_handler_t) (p : Nat) (xs ys : List Nat) (q : Nat) :
    DL mem p (xs ++ ys) q ↔ DL mem p xs (firstOf ys q) ∧ DL mem (lastOf p xs) ys q := by
  induction xs generalizing p with
  | nil => simp [DL, lastOf]
  | cons x xs ih =>
    show ((mem x).prev = some p ∧ (mem x).next = some (firstOf (xs ++ ys) q)
        ∧ DL mem x (xs ++ ys) q) ↔ _
    rw [ih x, firstOf_append]
    simp only [DL, lastOf, and_assoc]

theorem DL_congr (m1 m2 : Nat → intr_handler_t) (p : Nat) (xs : List Nat) (q : Nat)
    (hsame : ∀ x ∈ xs, (m2 x).next = (m1 x).next ∧ (m2 x).prev = (m1 x).prev)
    (h : DL m1 p xs q) : DL m2 p xs q := by
  induction xs generalizing p with
  | nil => trivial
  | cons x xs ih =>
    obtain ⟨h1, h2, h3⟩ := h
    obtain ⟨e1, e2⟩ := hsame x (by simp)
    exact ⟨e2.trans h1, e1.trans h2, ih x (fun y hy => hsame y (by simp [hy])) h3⟩

/-- A run keeps its inner links when only the `prev` of its first record and
the `next` of its last record are changed. -/
theorem DL_reseam (m1 m2 : Nat → intr_handler_t) (p q p1 q1 x0 : Nat) (xs : List Nat)
    (h : DL m1 p (x0 :: xs) q) (hnd : (x0 :: xs).Nodup)
    (hnext : ∀ x ∈ x0 :: xs, x ≠ lastOf x0 xs → (m2 x).next = (m1 x).next)
    (hlast : (m2 (lastOf x0 xs)).next = some q1)
    (hprev : ∀ x ∈ x0 :: xs, x ≠ x0 → (m2 x).prev = (m1 x).prev)
    (hfirst : (m2 x0).prev = some p1) :
    DL m2 p1 (x0 :: xs) q1 := by
  induction xs generalizing x0 p p1 with
  | nil => exact ⟨hfirst, by simpa [lastOf, firstOf] using hlast, trivial⟩
  | cons y ys ih =>
    obtain ⟨_, h2, h3⟩ := h
    obtain ⟨hx0, hnd1⟩ := List.nodup_cons.mp hnd
    have hy0 : y ≠ x0 := fun e => hx0 (by simp [e])
    have hl0 : x0 ≠ lastOf y ys := fun e => hx0 (e ▸ lastOf_mem y ys)
    refine ⟨hfirst, ?_, ih x0 x0 y h3 hnd1 ?_ (by simpa [lastOf] using hlast) ?_ ?_⟩
    · rw [hnext x0 (by simp) (by simpa [lastOf] using hl0)]
      exact h2
    · intro x hx hne
      exact hnext x (List.mem_cons_of_mem _ hx) (by simpa [lastOf] using hne)
    · intro x hx hne
      exact hprev x (List.mem_cons_of_mem _ hx) (fun e => hx0 (e ▸ hx))
    · rw [hprev y (by simp) hy0]
      exact h3.1

theorem DL_last_next (mem : Nat → intr_handler_t) (p x0 : Nat) (xs : List Nat) (q : Nat)
    (h : DL mem p (x0 :: xs) q) : (mem (lastOf x0 xs)).next = some q := by
  induction xs generalizing p x0 with
  | nil => exact h.2.1
  | cons y ys ih => exact ih x0 y h.2.2

theorem DL_mem_links (mem : Nat → intr_handler_t) (p : Nat) (xs : List Nat) (q : Nat)
    (h : DL mem p xs q) (x : Nat) (hx : x ∈ xs) :
    (∃ a, (mem x).next = some a) ∧ ∃ b, (mem x).prev = some b := by
  induction xs generalizing p with
  | nil => simp at hx
  | cons y ys ih =>
    rcases List.mem_cons.mp hx with e | hy
    · subst e
      exact ⟨⟨_, h.2.1⟩, ⟨_, h.1⟩⟩
    · exact ih y h.2.2 hy

theorem DL_seg (mem : Nat → intr_handler_t) (p a : Nat) (xs : List Nat) (q : Nat)
    (h : DL mem p (a :: xs) q) : Seg mem a xs q := by
  induction xs generalizing p a with
  | nil => exact h.2.1
  | cons x xs ih => exact ⟨h.2.1, ih a x h.2.2⟩

theorem linked_chainIs (σ : Registry) (V : Nat) (L : List Nat) (h : Linked σ V L) :
    ChainIs σ V L := by
  cases L with
  | nil => exact h
  | cons a rest => exact ⟨h.1, h.2.1, DL_seg σ.mem _ a rest a h.2.2, h.2.2.1⟩

theorem linked_mem_links (σ : Registry) (V : Nat) (L : List Nat) (h : Linked σ V L)
    (x : Nat) (hx : x ∈ L) :
    (∃ a, (σ.mem x).next = some a) ∧ ∃ b, (σ.mem x).prev = some b := by
  cases L with
  | nil => simp at hx
  | cons a rest => exact DL_mem_links σ.mem _ _ _ h.2.2 x hx

/-- Fields of the records after one record got a new `next`. -/
theorem upd_next (m : Nat → intr_handler_t) (a : Nat) (v : Option Nat) (x : Nat) :
    (Function.update m a { m a with next := v } x).next = (if x = a then v else (m x).next)
      ∧ (Function.update m a { m a with next := v } x).prev = (m x).prev
      ∧ (Function.update m a { m a with next := v } x).n = (m x).n
      ∧ (Function.update m a { m a with next := v } x).f = (m x).f
      ∧ (Function.update m a { m a with next := v } x).data = (m x).data := by
  by_cases hx : x = a
  · subst hx; simp
  · simp [Function.update_apply, hx]

/-- Fields of the records after one record got a new `prev`. -/
theorem upd_prev (m : Nat → intr_handler_t) (a : Nat) (v : Option Nat) (x : Nat) :
    (Function.update m a { m a with prev := v } x).next = (m x).next
      ∧ (Function.update m a { m a with prev := v } x).prev = (if x = a then v else (m x).prev)
      ∧ (Function.update m a { m a with prev := v } x).n = (m x).n
      ∧ (Function.update m a { m a with prev := v } x).f = (m x).f
      ∧ (Function.update m a { m a with prev := v } x).data = (m x).data := by
  by_cases hx : x = a
  · subst hx; simp
  · simp [Function.update_apply, hx]

/-- Payload of the records after one record got both links and its vector. -/
theorem upd_record (m : Nat → intr_handler_t) (R : Nat) (a b : Option Nat) (V x : Nat) :
    (Function.update m R { m R with next := a, prev := b, n := V } x).f = (m x).f
      ∧ (Function.update m R { m R with next := a, prev := b, n := V } x).data = (m x).data
      ∧ (Function.update m R { m R with next := a, prev := b, n := V } x).n
          = (if x = R then V else (m x).n) := by
  by_cases hx : x = R
  · subst hx; simp
  · simp [Function.update_apply, hx]

/-- Payload of the records after one record got its links back to null. -/
theorem upd_null (m : Nat → intr_handler_t) (R x : Nat) :
    (Function.update m R { m R with next := none, prev := none } x).f = (m x).f
      ∧ (Function.update m R { m R with next := none, prev := none } x).data = (m x).data
      ∧ (Function.update m R { m R with next := none, prev := none } x).n = (m x).n := by
  by_cases hx : x = R
  · subst hx; simp
  · simp [Function.update_apply, hx]

/-- What an insertion at the tail leaves in the payload of the records. -/
theorem linkTail_payload (mem : Nat → intr_handler_t) (V R h t : Nat) (x : Nat) :
    (linkTail mem V R h t x).f = (mem x).f ∧ (linkTail mem V R h t x).data = (mem x).data
      ∧ (linkTail mem V R h t x).n = (if x = R then V else (mem x).n) := by
  obtain ⟨a1, a2, a3⟩ := upd_record mem R (some h) (some t) V x
  obtain ⟨_, _, b3, b4, b5⟩ := upd_next
    (Function.update mem R { mem R with next := some h, prev := some t, n := V }) t (some R) x
  obtain ⟨_, _, c3, c4, c5⟩ := upd_prev
    (Function.update (Function.update mem R { mem R with next := some h, prev := some t, n := V })
      t { (Function.update mem R { mem R with next := some h, prev := some t, n := V }) t with
          next := some R }) h (some R) x
  exact ⟨c4.trans (b4.trans a1), c5.trans (b5.trans a2), c3.trans (b3.trans a3)⟩

/-- The links after a removal, for a record other than the removed one. -/
theorem unlink_links (mem : Nat → intr_handler_t) (R nx pv : Nat) (x : Nat) (hx : x ≠ R) :
    (unlink mem R nx pv x).next = (if x = pv then some nx else (mem x).next)
      ∧ (unlink mem R nx pv x).prev = (if x = nx then some pv else (mem x).prev) := by
  have e : unlink mem R nx pv x
      = Function.update (Function.update mem pv { mem pv with next := some nx }) nx
          { (Function.update mem pv { mem pv with next := some nx }) nx with prev := some pv } x :=
    Function.update_noteq hx _ _
  obtain ⟨a1, a2, _⟩ := upd_next mem pv (some nx) x
  obtain ⟨b1, b2, _⟩ := upd_prev (Function.update mem pv { mem pv with next := some nx }) nx
    (some pv) x
  rw [e]
  exact ⟨b1.trans a1, by rw [b2, a2]⟩

theorem unlink_self (mem : Nat → intr_handler_t) (R nx pv : Nat) :
    (unlink mem R nx pv R).next = none ∧ (unlink mem R nx pv R).prev = none := by
  simp [unlink]

theorem unlink_payload (mem : Nat → intr_handler_t) (R nx pv : Nat) (x : Nat) :
    (unlink mem R nx pv x).f = (mem x).f ∧ (unlink mem R nx pv x).data = (mem x).data
      ∧ (unlink mem R nx pv x).n = (mem x).n := by
  obtain ⟨_, _, a3, a4, a5⟩ := upd_next mem pv (some nx) x
  obtain ⟨_, _, b3, b4, b5⟩ := upd_prev (Function.update mem pv { mem pv with next := some nx })
    nx (some pv) x
  obtain ⟨c1, c2, c3⟩ := upd_null
    (Function.update (Function.update mem pv { mem pv with next := some nx }) nx
      { (Function.update mem pv { mem pv with next := some nx }) nx with prev := some pv }) R x
  exact ⟨c1.trans (b4.trans a4), c2.trans (b5.trans a5), c3.trans (b3.trans a3)⟩

theorem unlink_other (mem : Nat → intr_handler_t) (R nx pv : Nat) (x : Nat)
    (h1 : x ≠ R) (h2 : x ≠ nx) (h3 : x ≠ pv) : unlink mem R nx pv x = mem x := by
  simp [unlink, Function.update_apply, h1, h2, h3]

/-- One `attach` of a detached record on a ring: the record joins at the tail,
the other chain headers and the records outside the ring stay as they were. -/
theorem attach_ring (MAX_VECTOR V R : Nat) (σ : Registry) (L : List Nat)
    (hV : V ≤ MAX_VECTOR) (hdet : (σ.mem R).next = none ∧ (σ.mem R).prev = none)
    (hL : Linked σ V L) (hR : R ∉ L) :
    ∃ σ1, attach MAX_VECTOR V R σ = Except.ok σ1 ∧ Linked σ1 V (L ++ [R])
      ∧ (∀ U, U ≠ V → σ1.chain U = σ.chain U)
      ∧ (∀ x, x ∉ L → x ≠ R → σ1.mem x = σ.mem x)
      ∧ (∀ x, (σ1.mem x).f = (σ.mem x).f ∧ (σ1.mem x).data = (σ.mem x).data
          ∧ (σ1.mem x).n = (if x = R then V else (σ.mem x).n)) := by
  cases L with
  | nil =>
    refine ⟨_, attach_empty MAX_VECTOR V R σ hV hdet hL, ?_, ?_, ?_, ?_⟩
    · show Function.update σ.chain V (some R) V = some R ∧ [R].Nodup
        ∧ DL (Function.update σ.mem R _) R [R] R
      simp [DL, firstOf]
    · intro U hU
      simp [Function.update_apply, hU]
    · intro x _ hx
      simp [Function.update_apply, hx]
    · intro x
      exact upd_record σ.mem R (some R) (some R) V x
  | cons h rest =>
    obtain ⟨h1, h2, h3⟩ := hL
    have hRh : R ≠ h := fun e => hR (by simp [e])
    have hRt : R ≠ lastOf h rest := fun e => hR (e ▸ lastOf_mem h rest)
    obtain ⟨hn, hp, hk⟩ := linkTail_links σ.mem V R h (lastOf h rest) hRh hRt
    refine ⟨_, attach_nonempty MAX_VECTOR V R h _ σ hV hdet h1 h3.1, ?_, ?_, ?_, ?_⟩
    · show σ.chain V = some h ∧ (h :: (rest ++ [R])).Nodup
          ∧ DL (linkTail σ.mem V R h (lastOf h rest)) (lastOf h (rest ++ [R]))
              ((h :: rest) ++ [R]) h
      refine ⟨h1, ?_, ?_⟩
      · rw [← List.cons_append]
        exact List.Nodup.append h2 (List.nodup_singleton R)
          (by simpa [List.disjoint_singleton] using hR)
      · rw [lastOf_snoc, DL_append]
        refine ⟨?_, ?_⟩
        · refine DL_reseam σ.mem _ _ _ R R h rest h3 h2 ?_ ?_ ?_ ?_
          · intro x hx hne
            have hxR : x ≠ R := fun e => hR (e ▸ hx)
            simp only [hn x, hne, hxR, if_false]
          · simp only [hn, if_true]
          · intro x hx hne
            have hxR : x ≠ R := fun e => hR (e ▸ hx)
            simp only [hp x, hne, hxR, if_false]
          · simp only [hp, if_true]
        · show (linkTail σ.mem V R h (lastOf h rest) R).prev = some (lastOf h rest)
              ∧ (linkTail σ.mem V R h (lastOf h rest) R).next = some h ∧ True
          refine ⟨?_, ?_, trivial⟩
          · simp only [hp, hRh, if_false, if_true]
          · simp only [hn, hRt, if_false, if_true]
    · intro U _
      rfl
    · intro x hx hxR
      have hxh : x ≠ h := fun e => hx (by simp [e])
      have hxt : x ≠ lastOf h rest := fun e => hx (e ▸ lastOf_mem h rest)
      exact hk x hxR hxh hxt
    · intro x
      exact linkTail_payload σ.mem V R h (lastOf h rest) x

/-- Removal of the head `R` of the ring `R :: post`. -/
theorem unlink_head_ring (mem : Nat → intr_handler_t) (R y : Nat) (ys : List Nat)
    (hnd : (R :: y :: ys).Nodup) (hd : DL mem (lastOf R (y :: ys)) (R :: y :: ys) R) :
    DL (unlink mem R y (lastOf y ys)) (lastOf y ys) (y :: ys) y := by
  obtain ⟨hRn, hnd1⟩ := List.nodup_cons.mp hnd
  obtain ⟨_, _, h3⟩ := hd
  have hxR : ∀ x ∈ y :: ys, x ≠ R := fun x hx e => hRn (e ▸ hx)
  refine DL_reseam mem _ R R _ _ y ys h3 hnd1 ?_ ?_ ?_ ?_
  · intro x hx hne
    simp only [(unlink_links mem R y (lastOf y ys) x (hxR x hx)).1, hne, if_false]
  · simp only [(unlink_links mem R y (lastOf y ys) _ (hxR _ (lastOf_mem y ys))).1, if_true]
  · intro x hx hne
    simp only [(unlink_links mem R y (lastOf y ys) x (hxR x hx)).2, hne, if_false]
  · simp only [(unlink_links mem R y (lastOf y ys) y (hxR y (by simp))).2, if_true]

/-- Removal of a record `R` that is not the head: the ring is
`h :: pre ++ R :: post`. -/
theorem unlink_inner_ring (mem : Nat → intr_handler_t) (R h : Nat) (pre post : List Nat)
    (hnd : ((h :: pre) ++ R :: post).Nodup)
    (hd : DL mem (lastOf h (pre ++ R :: post)) ((h :: pre) ++ R :: post) h) :
    (mem R).prev = some (lastOf h pre) ∧ (mem R).next = some (firstOf post h)
      ∧ DL (unlink mem R (firstOf post h) (lastOf h pre)) (lastOf h (pre ++ post))
          ((h :: pre) ++ post) h := by
  obtain ⟨hndpre, hndR, hdisj⟩ := List.nodup_append.mp hnd
  obtain ⟨hRpost, hndpost⟩ := List.nodup_cons.mp hndR
  have hRpre : ∀ x ∈ h :: pre, x ≠ R := fun x hx e => hdisj hx (by simp [e])
  have hprepost : ∀ x ∈ h :: pre, ∀ z ∈ post, x ≠ z :=
    fun x hx z hz e => hdisj hx (List.mem_cons_of_mem _ (e ▸ hz))
  have hpostR : ∀ x ∈ post, x ≠ R := fun x hx e => hRpost (e ▸ hx)
  rw [DL_append] at hd
  obtain ⟨d1, d2⟩ := hd
  have hlastpre : lastOf (lastOf h (pre ++ R :: post)) (h :: pre) = lastOf h pre := rfl
  rw [hlastpre] at d2
  obtain ⟨e1, e2, e3⟩ := d2
  have d1R : DL mem (lastOf h (pre ++ R :: post)) (h :: pre) R := d1
  refine ⟨e1, e2, ?_⟩
  rw [DL_append]
  have hpvmem : lastOf h pre ∈ h :: pre := lastOf_mem h pre
  refine ⟨?_, ?_⟩
  · -- the part before the removed record
    refine DL_reseam mem _ _ R _ _ h pre d1R hndpre ?_ ?_ ?_ ?_
    · intro x hx hne
      simp only [(unlink_links mem R _ _ x (hRpre x hx)).1, hne, if_false]
    · simp only [(unlink_links mem R _ _ _ (hRpre _ hpvmem)).1, if_true]
    · intro x hx hne
      have hxn : x ≠ firstOf post h := by
        cases post with
        | nil => simpa [firstOf] using hne
        | cons y ys => exact hprepost x hx y (by simp)
      simp only [(unlink_links mem R _ _ x (hRpre x hx)).2, hxn, if_false]
    · cases post with
      | nil =>
        simp only [(unlink_links mem R _ _ h (hRpre h (by simp))).2, firstOf, if_true,
          List.append_nil]
      | cons y ys =>
        have hhy : h ≠ y := hprepost h (by simp) y (by simp)
        simp only [(unlink_links mem R _ _ h (hRpre h (by simp))).2, firstOf, hhy, if_false]
        rw [d1R.1, lastOf_append, lastOf_append]
        rfl
  · -- the part after the removed record
    cases post with
    | nil => trivial
    | cons y ys =>
      have hpvy : ∀ x ∈ y :: ys, x ≠ lastOf h pre :=
        fun x hx e => hprepost _ hpvmem x hx e.symm
      show DL (unlink mem R y (lastOf h pre)) (lastOf h pre) (y :: ys) h
      refine DL_reseam mem _ R h _ _ y ys e3 hndpost ?_ ?_ ?_ ?_
      · intro x hx _
        simp only [(unlink_links mem R y _ x (hpostR x hx)).1, hpvy x hx, if_false]
      · simp only [(unlink_links mem R y _ _ (hpostR _ (lastOf_mem y ys))).1,
          hpvy _ (lastOf_mem y ys), if_false]
        exact DL_last_next mem R y ys h e3
      · intro x hx hne
        simp only [(unlink_links mem R y _ x (hpostR x hx)).2, hne, if_false]
      · simp only [(unlink_links mem R y _ y (hpostR y (by simp))).2, if_true]

/-- One `detach` of a member of a ring: the record leaves, the order of the
others is kept, the other chain headers and the records outside the ring stay
as they were, and the record's links are null again. -/
theorem detach_ring (MAX_VECTOR V R : Nat) (σ : Registry) (L : List Nat)
    (hV : V ≤ MAX_VECTOR) (hL : Linked σ V L) (hR : R ∈ L) (hn : (σ.mem R).n = V) :
    ∃ σ1, detach MAX_VECTOR V R σ = Except.ok σ1 ∧ Linked σ1 V (L.erase R)
      ∧ (∀ U, U ≠ V → σ1.chain U = σ.chain U)
      ∧ (∀ x, x ∉ L → σ1.mem x = σ.mem x)
      ∧ ((σ1.mem R).next = none ∧ (σ1.mem R).prev = none)
      ∧ (∀ x, (σ1.mem x).f = (σ.mem x).f ∧ (σ1.mem x).data = (σ.mem x).data
          ∧ (σ1.mem x).n = (σ.mem x).n) := by
  -- the two neighbours and the ring that is left
  have key : ∃ nx pv, nx ∈ L ∧ pv ∈ L ∧ (σ.mem R).next = some nx ∧ (σ.mem R).prev = some pv
      ∧ Linked
          { chain := Function.update σ.chain V
              (if σ.chain V = some R then (if nx = R then none else some nx) else σ.chain V),
            mem := unlink σ.mem R nx pv } V (L.erase R) := by
    obtain ⟨pre, post, rfl⟩ := List.append_of_mem hR
    cases pre with
    | nil =>
      cases post with
      | nil =>
        obtain ⟨h1, _, h3⟩ := hL
        refine ⟨R, R, by simp, by simp, h3.2.1, h3.1, ?_⟩
        have herase : ([] ++ [R]).erase R = [] := by simp
        rw [herase]
        show Function.update σ.chain V _ V = none
        simp [h1]
      | cons y ys =>
        obtain ⟨h1, h2, h3⟩ := hL
        have hyR : y ≠ R := fun e => (List.nodup_cons.mp h2).1 (by simp [e])
        refine ⟨y, lastOf y ys, by simp, List.mem_cons_of_mem _ (lastOf_mem y ys), h3.2.1, h3.1,
          ?_⟩
        have herase : ([] ++ R :: y :: ys).erase R = y :: ys := by simp
        rw [herase]
        show Function.update σ.chain V _ V = some y ∧ (y :: ys).Nodup
          ∧ DL (unlink σ.mem R y (lastOf y ys)) (lastOf y ys) (y :: ys) y
        refine ⟨by simp [h1, hyR], (List.nodup_cons.mp h2).2, unlink_head_ring σ.mem R y ys h2 h3⟩
    | cons h pre =>
      obtain ⟨h1, h2a, h3a⟩ := hL
      have h2 : ((h :: pre) ++ R :: post).Nodup := h2a
      have h3 : DL σ.mem (lastOf h (pre ++ R :: post)) ((h :: pre) ++ R :: post) h := h3a
      have hRpre : R ∉ h :: pre := fun hm =>
        (List.nodup_append.mp h2).2.2 hm (by simp)
      have hhR : h ≠ R := fun e => hRpre (by simp [e])
      obtain ⟨e1, e2, e3⟩ := unlink_inner_ring σ.mem R h pre post h2 h3
      have hnx : firstOf post h ∈ (h :: pre) ++ R :: post := by
        cases post with
        | nil => simp [firstOf]
        | cons y ys => simp [firstOf]
      have hpv : lastOf h pre ∈ (h :: pre) ++ R :: post :=
        List.mem_append_left _ (lastOf_mem h pre)
      refine ⟨firstOf post h, lastOf h pre, hnx, hpv, e2, e1, ?_⟩
      have herase : ((h :: pre) ++ R :: post).erase R = (h :: pre) ++ post := by
        rw [List.erase_append_right _ hRpre, List.erase_cons_head]
      rw [herase]
      have hne : σ.chain V ≠ some R := by
        rw [h1]; exact fun e => hhR (Option.some.inj e)
      have hnd : ((h :: pre) ++ post).Nodup := by
        obtain ⟨a1, a2, a3⟩ := List.nodup_append.mp h2
        exact List.nodup_append.mpr ⟨a1, (List.nodup_cons.mp a2).2,
          fun x hx hy => a3 hx (List.mem_cons_of_mem _ hy)⟩
      show Function.update σ.chain V _ V = some h ∧ (h :: (pre ++ post)).Nodup
        ∧ DL (unlink σ.mem R (firstOf post h) (lastOf h pre)) (lastOf h (pre ++ post))
            ((h :: pre) ++ post) h
      exact ⟨by simp [h1, hhR], hnd, e3⟩
  obtain ⟨nx, pv, hnx, hpv, enx, epv, hlinked⟩ := key
  refine ⟨_, detach_linked MAX_VECTOR V R nx pv σ hV enx epv hn, hlinked, ?_, ?_, ?_, ?_⟩
  · intro U hU
    simp [Function.update_apply, hU]
  · intro x hx
    exact unlink_other σ.mem R nx pv x (fun e => hx (e ▸ hR)) (fun e => hx (e ▸ hnx))
      (fun e => hx (e ▸ hpv))
  · exact unlink_self σ.mem R nx pv
  · intro x
    exact unlink_payload σ.mem R nx pv x

theorem linked_congr (σ σ1 : Registry) (U : Nat) (L : List Nat)
    (hc : σ1.chain U = σ.chain U) (hm : ∀ x ∈ L, σ1.mem x = σ.mem x) (h : Linked σ U L) :
    Linked σ1 U L := by
  cases L with
  | nil => exact hc.trans h
  | cons a rest =>
    exact ⟨hc.trans h.1, h.2.1,
      DL_congr σ.mem σ1.mem _ _ _ (fun x hx => by rw [hm x hx]; exact ⟨rfl, rfl⟩) h.2.2⟩

/-- A successful `attach` had a vector in range and a detached record. -/
theorem attach_ok_inv (MAX_VECTOR V R : Nat) (σ σ1 : Registry)
    (h : attach MAX_VECTOR V R σ = Except.ok σ1) :
    V ≤ MAX_VECTOR ∧ (σ.mem R).next = none ∧ (σ.mem R).prev = none := by
  unfold attach at h
  by_cases hV : MAX_VECTOR < V
  · simp [hV] at h
  · by_cases hl : (σ.mem R).next ≠ none ∨ (σ.mem R).prev ≠ none
    · simp [hV, hl] at h
    · have hl1 : (σ.mem R).next = none ∧ (σ.mem R).prev = none := by
        constructor
        · by_contra hne; exact hl (Or.inl hne)
        · by_contra hne; exact hl (Or.inr hne)
      exact ⟨by omega, hl1⟩

/-- A successful `detach` had a vector in range and a record with both links
set and carrying that vector. -/
theorem detach_ok_inv (MAX_VECTOR V R : Nat) (σ σ1 : Registry)
    (h : detach MAX_VECTOR V R σ = Except.ok σ1) :
    V ≤ MAX_VECTOR ∧ (σ.mem R).next ≠ none ∧ (σ.mem R).n = V := by
  unfold detach at h
  by_cases hV : MAX_VECTOR < V
  · simp [hV] at h
  · cases hn : (σ.mem R).next with
    | none => simp [hV, hn] at h
    | some nx =>
      cases hp : (σ.mem R).prev with
      | none => simp [hV, hn, hp] at h
      | some pv =>
        by_cases hv : (σ.mem R).n = V
        · exact ⟨by omega, by simp, hv⟩
        · simp [hV, hn, hp, hv] at h

/-- Records on the rolls of two different vectors are different records. -/
theorem roll_disjoint (s : Tracked) (hinv : RegInv s) (U V r : Nat) (hUV : U ≠ V)
    (hU : r ∈ s.roll U) : r ∉ s.roll V :=
  fun hVm => hUV ((hinv.2.1 U r hU).symm.trans (hinv.2.1 V r hVm))

/-- The invariant survives every call of the registration interface, and no
call touches the callback or the private data of a record. -/
theorem stepOp_inv (MAX_VECTOR : Nat) (s : Tracked) (op : RegOp) (hinv : RegInv s) :
    RegInv (stepOp MAX_VECTOR s op)
      ∧ ∀ x, ((stepOp MAX_VECTOR s op).reg.mem x).f = (s.reg.mem x).f
          ∧ ((stepOp MAX_VECTOR s op).reg.mem x).data = (s.reg.mem x).data := by
  obtain ⟨i1, i2, i3⟩ := hinv
  cases op with
  | attach V R =>
    cases hres : attach MAX_VECTOR V R s.reg with
    | error e =>
      have hs : stepOp MAX_VECTOR s (RegOp.attach V R) = s := by simp only [stepOp, hres]
      rw [hs]
      exact ⟨⟨i1, i2, i3⟩, fun _ => ⟨rfl, rfl⟩⟩
    | ok σ1 =>
      obtain ⟨hV, hdet⟩ := attach_ok_inv MAX_VECTOR V R s.reg σ1 hres
      have hRout : ∀ U, R ∉ s.roll U := by
        intro U hm
        obtain ⟨⟨a, ha⟩, _⟩ := linked_mem_links s.reg U _ (i1 U) R hm
        rw [hdet.1] at ha
        exact Option.noConfusion ha
      obtain ⟨σ2, e2, l2, c2, m2, p2⟩ :=
        attach_ring MAX_VECTOR V R s.reg (s.roll V) hV hdet (i1 V) (hRout V)
      have hσ : σ1 = σ2 := Except.ok.inj (hres.symm.trans e2)
      subst hσ
      simp only [stepOp, hres]
      refine ⟨⟨?_, ?_, ?_⟩, fun x => ⟨(p2 x).1, (p2 x).2.1⟩⟩
      · intro U
        by_cases hU : U = V
        · subst hU; simpa using l2
        · simp only [Function.update_apply, hU, if_false]
          refine linked_congr s.reg σ1 U _ (c2 U hU) ?_ (i1 U)
          intro x hx
          exact m2 x (roll_disjoint s ⟨i1, i2, i3⟩ U V x hU hx) (fun e => hRout U (e ▸ hx))
      · intro U r hr
        by_cases hU : U = V
        · subst hU
          simp only [Function.update_same, List.mem_append, List.mem_singleton] at hr
          rw [(p2 r).2.2]
          by_cases hrR : r = R
          · simp [hrR]
          · simp only [hrR, if_false]
            rcases hr with hr | hr
            · exact i2 U r hr
            · exact absurd hr hrR
        · simp only [Function.update_apply, hU, if_false] at hr
          have hrR : r ≠ R := fun e => hRout U (e ▸ hr)
          rw [(p2 r).2.2]
          simp only [hrR, if_false]
          exact i2 U r hr
      · intro r hr
        have hrV : r ∉ s.roll V ∧ r ≠ R := by
          have := hr V
          simp only [Function.update_same, List.mem_append, List.mem_singleton, not_or] at this
          exact this
        have hall : ∀ U, r ∉ s.roll U := by
          intro U
          by_cases hU : U = V
          · subst hU; exact hrV.1
          · have := hr U
            simpa only [Function.update_apply, hU, if_false] using this
        rw [m2 r hrV.1 hrV.2]
        exact i3 r hall
  | detach V R =>
    cases hres : detach MAX_VECTOR V R s.reg with
    | error e =>
      have hs : stepOp MAX_VECTOR s (RegOp.detach V R) = s := by simp only [stepOp, hres]
      rw [hs]
      exact ⟨⟨i1, i2, i3⟩, fun _ => ⟨rfl, rfl⟩⟩
    | ok σ1 =>
      obtain ⟨hV, hnx, hn⟩ := detach_ok_inv MAX_VECTOR V R s.reg σ1 hres
      have hRin : R ∈ s.roll V := by
        by_contra hout
        have hall : ∀ U, R ∉ s.roll U := by
          intro U hm
          have : U = V := (i2 U R hm).symm.trans hn
          exact hout (this ▸ hm)
        exact hnx (i3 R hall).1
      obtain ⟨σ2, e2, l2, c2, m2, d2, p2⟩ :=
        detach_ring MAX_VECTOR V R s.reg (s.roll V) hV (i1 V) hRin hn
      have hσ : σ1 = σ2 := Except.ok.inj (hres.symm.trans e2)
      subst hσ
      simp only [stepOp, hres]
      refine ⟨⟨?_, ?_, ?_⟩, fun x => ⟨(p2 x).1, (p2 x).2.1⟩⟩
      · intro U
        by_cases hU : U = V
        · subst hU; simpa using l2
        · simp only [Function.update_apply, hU, if_false]
          refine linked_congr s.reg σ1 U _ (c2 U hU) ?_ (i1 U)
          intro x hx
          exact m2 x (roll_disjoint s ⟨i1, i2, i3⟩ U V x hU hx)
      · intro U r hr
        rw [(p2 r).2.2]
        by_cases hU : U = V
        · subst hU
          simp only [Function.update_same] at hr
          exact i2 U r (List.mem_of_mem_erase hr)
        · simp only [Function.update_apply, hU, if_false] at hr
          exact i2 U r hr
      · intro r hr
        by_cases hrR : r = R
        · subst hrR; exact d2
        · have hrV : r ∉ s.roll V := by
            have := hr V
            simp only [Function.update_same] at this
            exact fun hm => this ((List.mem_erase_of_ne hrR).mpr hm)
          have hall : ∀ U, r ∉ s.roll U := by
            intro U
            by_cases hU : U = V
            · subst hU; exact hrV
            · have := hr U
              simpa only [Function.update_apply, hU, if_false] using this
          rw [m2 r hrV]
          exact i3 r hall

theorem foldl_stepOp_inv (MAX_VECTOR : Nat) (ops : List RegOp) (s : Tracked) (hinv : RegInv s) :
    RegInv (ops.foldl (stepOp MAX_VECTOR) s)
      ∧ ∀ x, ((ops.foldl (stepOp MAX_VECTOR) s).reg.mem x).f = (s.reg.mem x).f
          ∧ ((ops.foldl (stepOp MAX_VECTOR) s).reg.mem x).data = (s.reg.mem x).data := by
  induction ops generalizing s with
  | nil => exact ⟨hinv, fun _ => ⟨rfl, rfl⟩⟩
  | cons op ops ih =>
    obtain ⟨h1, h2⟩ := stepOp_inv MAX_VECTOR s op hinv
    obtain ⟨h3, h4⟩ := ih (stepOp MAX_VECTOR s op) h1
    exact ⟨h3, fun x => ⟨(h4 x).1.trans (h2 x).1, (h4 x).2.trans (h2 x).2⟩⟩

/-- Every registry reached from system init by calls of `attach` and `detach`
satisfies the invariant, and holds the callbacks and private data the callers
put in the records. -/
theorem runOps_inv (MAX_VECTOR : Nat) (ops : List RegOp) (σ0 : Registry) (h0 : IsInit σ0) :
    RegInv (runOps MAX_VECTOR ops σ0)
      ∧ ∀ x, ((runOps MAX_VECTOR ops σ0).reg.mem x).f = (σ0.mem x).f
          ∧ ((runOps MAX_VECTOR ops σ0).reg.mem x).data = (σ0.mem x).data :=
  foldl_stepOp_inv MAX_VECTOR ops ⟨σ0, fun _ => []⟩
    ⟨fun V => h0.1 V, fun _ _ hr => absurd hr (List.not_mem_nil _), fun r _ => h0.2 r⟩

/-- A walk that finishes along a path leading back to the head yields the
path, whatever the fuel was. -/
theorem walk_some (mem : Nat → intr_handler_t) (h : Nat) (xs : List Nat) (a fuel : Nat)
    (L : List Nat) (hseg : Seg mem a xs h) (hh : h ∉ xs)
    (hw : walk mem h fuel a = some L) : L = a :: xs := by
  induction xs generalizing a fuel L with
  | nil =>
    cases fuel with
    | zero => simp [walk] at hw
    | succ k =>
      have hs : (mem a).next = some h := hseg
      simp only [walk, hs, if_true] at hw
      exact (Option.some.inj hw).symm
  | cons x xs ih =>
    cases fuel with
    | zero => simp [walk] at hw
    | succ k =>
      obtain ⟨h1, h2⟩ := hseg
      have hx : x ≠ h := fun e => hh (by simp [e])
      have hxs : h ∉ xs := fun e => hh (by simp [e])
      simp only [walk, h1, hx, if_false] at hw
      cases hk : walk mem h k x with
      | none => simp [hk] at hw
      | some l =>
        simp only [hk] at hw
        rw [← Option.some.inj hw, ih x k l h2 hxs hk]

/-- In a registry that satisfies the invariant, the walk of a chain, given
fuel for its members, yields its roll. -/
theorem forEach_roll (s : Tracked) (hinv : RegInv s) (V fuel : Nat)
    (hfuel : (s.roll V).length ≤ fuel) : forEach fuel s.reg V = some (s.roll V) :=
  forEach_chainIs s.reg V (s.roll V) fuel (linked_chainIs s.reg V _ (hinv.1 V)) hfuel

/-- In a registry that satisfies the invariant, a walk that finishes yields
the roll. -/
theorem forEach_some_roll (s : Tracked) (hinv : RegInv s) (U fuel : Nat) (L : List Nat)
    (hL : forEach fuel s.reg U = some L) : L = s.roll U := by
  have hc := linked_chainIs s.reg U _ (hinv.1 U)
  cases hr : s.roll U with
  | nil =>
    rw [hr] at hc
    have hcn : s.reg.chain U = none := hc
    simp only [forEach, hcn] at hL
    exact (Option.some.inj hL).symm
  | cons a rest =>
    rw [hr] at hc
    obtain ⟨c1, c2, c3, _⟩ := hc
    simp only [forEach, c1] at hL
    exact walk_some s.reg.mem a rest a fuel L c3 (List.nodup_cons.mp c2).1 hL

/-- With the invariant, `attach(V, R)` succeeds exactly when the vector is in
range and the record is on no roll. -/
theorem attach_ok_iff (MAX_VECTOR V R : Nat) (s : Tracked) (hinv : RegInv s) :
    (∃ σ1, attach MAX_VECTOR V R s.reg = Except.ok σ1)
      ↔ V ≤ MAX_VECTOR ∧ ∀ U, R ∉ s.roll U := by
  constructor
  · rintro ⟨σ1, h⟩
    obtain ⟨hV, hdet⟩ := attach_ok_inv MAX_VECTOR V R s.reg σ1 h
    refine ⟨hV, fun U hm => ?_⟩
    obtain ⟨⟨a, ha⟩, _⟩ := linked_mem_links s.reg U _ (hinv.1 U) R hm
    rw [hdet.1] at ha
    exact Option.noConfusion ha
  · rintro ⟨hV, hout⟩
    obtain ⟨σ1, e1, _⟩ :=
      attach_ring MAX_VECTOR V R s.reg (s.roll V) hV (hinv.2.2 R hout) (hinv.1 V) (hout V)
    exact ⟨σ1, e1⟩

/-- With the invariant, `detach(V, R)` succeeds exactly when the vector is in
range and the record is on the roll of `V`. -/
theorem detach_ok_iff (MAX_VECTOR V R : Nat) (s : Tracked) (hinv : RegInv s) :
    (∃ σ1, detach MAX_VECTOR V R s.reg = Except.ok σ1)
      ↔ V ≤ MAX_VECTOR ∧ R ∈ s.roll V := by
  constructor
  · rintro ⟨σ1, h⟩
    obtain ⟨hV, hnx, hn⟩ := detach_ok_inv MAX_VECTOR V R s.reg σ1 h
    refine ⟨hV, ?_⟩
    by_contra hout
    have hall : ∀ U, R ∉ s.roll U := by
      intro U hm
      have : U = V := (hinv.2.1 U R hm).symm.trans hn
      exact hout (this ▸ hm)
    exact hnx (hinv.2.2 R hall).1
  · rintro ⟨hV, hin⟩
    obtain ⟨σ1, e1, _⟩ :=
      detach_ring MAX_VECTOR V R s.reg (s.roll V) hV (hinv.1 V) hin (hinv.2.1 V R hin)
    exact ⟨σ1, e1⟩

/-- What the aggregation does with the callbacks: the `i`-th call is the run
of the callback of the `i`-th member from the state its predecessors left, and
the final state is the one the last callback left. -/
theorem runHandlers_exec {W : Type} (exec : Nat → Nat → Nat → W → Status × W) (V : Nat)
    (mem : Nat → intr_handler_t) (l : List Nat) (w : W) :
    (runHandlers exec V mem l w).world = l.foldl (stepWorld exec V mem) w
      ∧ ∀ i (hi : i < l.length), (runHandlers exec V mem l w).calls[i]?
          = some (l[i], (exec (mem l[i]).f V (mem l[i]).data
              ((l.take i).foldl (stepWorld exec V mem) w)).1) := by
  induction l generalizing w with
  | nil => exact ⟨rfl, fun i hi => absurd hi (Nat.not_lt_zero i)⟩
  | cons r rs ih =>
    obtain ⟨ih1, ih2⟩ := ih (exec (mem r).f V (mem r).data w).2
    refine ⟨ih1, ?_⟩
    intro i hi
    cases i with
    | zero => simp [runHandlers]
    | succ j =>
      have hj : j < rs.length := by simpa using hi
      have := ih2 j hj
      simpa [runHandlers, stepWorld] using this

/-- The outcome of the aggregation in terms of what the callbacks return. -/
theorem runHandlers_handled_iff {W : Type} (exec : Nat → Nat → Nat → W → Status × W) (V : Nat)
    (mem : Nat → intr_handler_t) (l : List Nat) (w : W) :
    (runHandlers exec V mem l w).outcome = Status.HANDLED
      ↔ ∃ i, ∃ hi : i < l.length, (exec (mem l[i]).f V (mem l[i]).data
          ((l.take i).foldl (stepWorld exec V mem) w)).1 = Status.HANDLED := by
  induction l generalizing w with
  | nil => simp [runHandlers]
  | cons r rs ih =>
    have ih1 := ih (exec (mem r).f V (mem r).data w).2
    by_cases hp : (exec (mem r).f V (mem r).data w).1 = Status.HANDLED
    · simp only [runHandlers, hp, if_true, true_iff]
      exact ⟨0, by simp, hp⟩
    · simp only [runHandlers, hp, if_false]
      rw [ih1]
      constructor
      · rintro ⟨i, hi, h⟩
        exact ⟨i + 1, by simpa using hi, h⟩
      · rintro ⟨i, hi, h⟩
        cases i with
        | zero => exact absurd h hp
        | succ j => exact ⟨j, by simpa using hi, h⟩

theorem stepWorld_congr {W : Type} (exec : Nat → Nat → Nat → W → Status × W) (V : Nat)
    (m1 m2 : Nat → intr_handler_t)
    (h : ∀ x, (m1 x).f = (m2 x).f ∧ (m1 x).data = (m2 x).data) :
    stepWorld exec V m1 = stepWorld exec V m2 := by
  funext w r
  simp only [stepWorld, (h r).1, (h r).2]

/-- One call changes the roll as the specification of the chains says. -/
theorem stepOp_roll (MAX_VECTOR : Nat) (s : Tracked) (op : RegOp) (hinv : RegInv s)
    (hout : ∀ U, MAX_VECTOR < U → s.roll U = []) :
    (stepOp MAX_VECTOR s op).roll = specStep MAX_VECTOR s.roll op
      ∧ ∀ U, MAX_VECTOR < U → (stepOp MAX_VECTOR s op).roll U = [] := by
  cases op with
  | attach V R =>
    by_cases hc : V ≤ MAX_VECTOR ∧ ∀ U, U ≤ MAX_VECTOR → R ∉ s.roll U
    · have hall : ∀ U, R ∉ s.roll U := by
        intro U
        by_cases hU : U ≤ MAX_VECTOR
        · exact hc.2 U hU
        · rw [hout U (by omega)]; exact List.not_mem_nil R
      obtain ⟨σ1, e1⟩ := (attach_ok_iff MAX_VECTOR V R s hinv).mpr ⟨hc.1, hall⟩
      have hspec : specStep MAX_VECTOR s.roll (RegOp.attach V R)
          = Function.update s.roll V (s.roll V ++ [R]) := if_pos hc
      have hstep : (stepOp MAX_VECTOR s (RegOp.attach V R)).roll
          = Function.update s.roll V (s.roll V ++ [R]) := by simp only [stepOp, e1]
      refine ⟨hstep.trans hspec.symm, ?_⟩
      intro U hU
      have hUV : U ≠ V := by omega
      rw [hstep]
      simp only [Function.update_apply, hUV, if_false]
      exact hout U hU
    · have hfail : ∀ σ1, attach MAX_VECTOR V R s.reg ≠ Except.ok σ1 := by
        intro σ1 e1
        obtain ⟨h1, h2⟩ := (attach_ok_iff MAX_VECTOR V R s hinv).mp ⟨σ1, e1⟩
        exact hc ⟨h1, fun U _ => h2 U⟩
      cases hres : attach MAX_VECTOR V R s.reg with
      | ok σ1 => exact absurd hres (hfail σ1)
      | error e =>
        have hspec : specStep MAX_VECTOR s.roll (RegOp.attach V R) = s.roll := if_neg hc
        have hstep : stepOp MAX_VECTOR s (RegOp.attach V R) = s := by simp only [stepOp, hres]
        rw [hstep, hspec]
        exact ⟨rfl, hout⟩
  | detach V R =>
    by_cases hc : V ≤ MAX_VECTOR ∧ R ∈ s.roll V
    · obtain ⟨σ1, e1⟩ := (detach_ok_iff MAX_VECTOR V R s hinv).mpr hc
      have hspec : specStep MAX_VECTOR s.roll (RegOp.detach V R)
          = Function.update s.roll V ((s.roll V).erase R) := if_pos hc
      have hstep : (stepOp MAX_VECTOR s (RegOp.detach V R)).roll
          = Function.update s.roll V ((s.roll V).erase R) := by simp only [stepOp, e1]
      refine ⟨hstep.trans hspec.symm, ?_⟩
      intro U hU
      have hUV : U ≠ V := by omega
      rw [hstep]
      simp only [Function.update_apply, hUV, if_false]
      exact hout U hU
    · have hfail : ∀ σ1, detach MAX_VECTOR V R s.reg ≠ Except.ok σ1 := by
        intro σ1 e1
        exact hc ((detach_ok_iff MAX_VECTOR V R s hinv).mp ⟨σ1, e1⟩)
      cases hres : detach MAX_VECTOR V R s.reg with
      | ok σ1 => exact absurd hres (hfail σ1)
      | error e =>
        have hspec : specStep MAX_VECTOR s.roll (RegOp.detach V R) = s.roll := if_neg hc
        have hstep : stepOp MAX_VECTOR s (RegOp.detach V R) = s := by simp only [stepOp, hres]
        rw [hstep, hspec]
        exact ⟨rfl, hout⟩

theorem foldl_stepOp_roll (MAX_VECTOR : Nat) (ops : List RegOp) (s : Tracked) (hinv : RegInv s)
    (hout : ∀ U, MAX_VECTOR < U → s.roll U = []) :
    (ops.foldl (stepOp MAX_VECTOR) s).roll = ops.foldl (specStep MAX_VECTOR) s.roll := by
  induction ops generalizing s with
  | nil => rfl
  | cons op ops ih =>
    obtain ⟨h1, h2⟩ := stepOp_roll MAX_VECTOR s op hinv hout
    have h3 := ih (stepOp MAX_VECTOR s op) (stepOp_inv MAX_VECTOR s op hinv).1 h2
    simp only [List.foldl_cons, h3, h1]

/-- Refinement: after any history of calls from system init, the roll of the
linked registry is the ordered chains of the specification. -/
theorem runOps_roll (MAX_VECTOR : Nat) (ops : List RegOp) (σ0 : Registry) (h0 : IsInit σ0) :
    (runOps MAX_VECTOR ops σ0).roll = specRun MAX_VECTOR ops :=
  foldl_stepOp_roll MAX_VECTOR ops ⟨σ0, fun _ => []⟩
    ⟨fun V => h0.1 V, fun _ _ hr => absurd hr (List.not_mem_nil _), fun r _ => h0.2 r⟩
    (fun _ _ => rfl)

/-! ## Theorems: dispatch on a reachable registry -/

/-- Claim C3.  Take any registry reached from system init by calls of `attach`
and `detach`, and a valid vector `V`; its attached handlers are, in attachment
order, the `N` records of `specRun MAX_VECTOR ops V`.  Then `dispatch` on `V`
returns, and it invokes exactly these `N` callbacks, each once, head to tail:
the `i`-th call is the run `exec f V data` of the callback and private data the
caller put in the `i`-th record, from the state its predecessors left, with the
status that run returned, and the final state is the one the last callback
left.  This holds for every `exec`, so also when an earlier handler returns
`ERROR`. -/
theorem dispatch_invokes_attached_in_order {W : Type}
    (exec : Nat → Nat → Nat → W → Status × W) (MAX_VECTOR V : Nat) (ops : List RegOp)
    (σ0 : Registry) (w : W) (fuel : Nat)
    (h0 : IsInit σ0) (hV : V ≤ MAX_VECTOR)
    (hfuel : (specRun MAX_VECTOR ops V).length ≤ fuel) :
    ∃ res, dispatch exec MAX_VECTOR fuel V (runOps MAX_VECTOR ops σ0).reg w
        = some (Except.ok res)
      ∧ res.calls.map Prod.fst = specRun MAX_VECTOR ops V
      ∧ (∀ r ∈ specRun MAX_VECTOR ops V, (res.calls.map Prod.fst).count r = 1)
      ∧ (∀ i (hi : i < (specRun MAX_VECTOR ops V).length),
          res.calls[i]? = some
            ((specRun MAX_VECTOR ops V)[i],
             (exec (σ0.mem (specRun MAX_VECTOR ops V)[i]).f V
                (σ0.mem (specRun MAX_VECTOR ops V)[i]).data
                (((specRun MAX_VECTOR ops V).take i).foldl (stepWorld exec V σ0.mem) w)).1))
      ∧ res.world = (specRun MAX_VECTOR ops V).foldl (stepWorld exec V σ0.mem) w := by
  obtain ⟨hinv, hpay⟩ := runOps_inv MAX_VECTOR ops σ0 h0
  have hroll : (runOps MAX_VECTOR ops σ0).roll V = specRun MAX_VECTOR ops V :=
    congrFun (runOps_roll MAX_VECTOR ops σ0 h0) V
  have hwalk : forEach fuel (runOps MAX_VECTOR ops σ0).reg V
      = some (specRun MAX_VECTOR ops V) := by
    rw [← hroll]
    exact forEach_roll (runOps MAX_VECTOR ops σ0) hinv V fuel (by rw [hroll]; exact hfuel)
  have hV1 : ¬ MAX_VECTOR < V := by omega
  have hnd : (specRun MAX_VECTOR ops V).Nodup := by
    have hl := hinv.1 V
    rw [hroll] at hl
    cases hr : specRun MAX_VECTOR ops V with
    | nil => exact List.nodup_nil
    | cons a rest => rw [hr] at hl; exact hl.2.1
  have hsw := stepWorld_congr exec V (runOps MAX_VECTOR ops σ0).reg.mem σ0.mem hpay
  obtain ⟨e1, e2⟩ := runHandlers_exec exec V (runOps MAX_VECTOR ops σ0).reg.mem
    (specRun MAX_VECTOR ops V) w
  have hcalls := runHandlers_calls exec V (runOps MAX_VECTOR ops σ0).reg.mem
    (specRun MAX_VECTOR ops V) w
  refine ⟨runHandlers exec V (runOps MAX_VECTOR ops σ0).reg.mem
    (specRun MAX_VECTOR ops V) w, by simp only [dispatch, hV1, hwalk, if_false],
    hcalls, ?_, ?_, ?_⟩
  · intro r hr
    rw [hcalls]
    exact List.count_eq_one_of_mem hnd hr
  · intro i hi
    rw [e2 i hi, hsw, (hpay _).1, (hpay _).2]
  · rw [e1, hsw]

theorem dispatch_invokes_attached_in_order_witness :
    (∃ res, dispatch sampleExec 15 3 5 (runOps 15 sampleOps initRegistry).reg 0
        = some (Except.ok res)
      ∧ res.calls.map Prod.fst = specRun 15 sampleOps 5
      ∧ (∀ r ∈ specRun 15 sampleOps 5, (res.calls.map Prod.fst).count r = 1)
      ∧ (∀ i (hi : i < (specRun 15 sampleOps 5).length),
          res.calls[i]? = some
            ((specRun 15 sampleOps 5)[i],
             (sampleExec (initRegistry.mem (specRun 15 sampleOps 5)[i]).f 5
                (initRegistry.mem (specRun 15 sampleOps 5)[i]).data
                (((specRun 15 sampleOps 5).take i).foldl
                  (stepWorld sampleExec 5 initRegistry.mem) 0)).1))
      ∧ res.world
          = (specRun 15 sampleOps 5).foldl (stepWorld sampleExec 5 initRegistry.mem) 0)
      ∧ specRun 15 sampleOps 5 = [10, 30, 20]
      ∧ dispatch sampleExec 15 3 5 (runOps 15 sampleOps initRegistry).reg 0
          = some (Except.ok ⟨Status.HANDLED, 1,
              [(10, Status.ERROR), (30, Status.NOT_MINE), (20, Status.HANDLED)], 3⟩) :=
  ⟨dispatch_invokes_attached_in_order sampleExec 15 5 sampleOps initRegistry 0 3
    ⟨fun _ => rfl, fun _ => ⟨rfl, rfl⟩⟩ (by decide) (by decide), by decide, rfl⟩

/-- Claim C4.  Take any registry reached from system init by calls of `attach`
and `detach` and a valid vector `V`, with the attached handlers
`specRun MAX_VECTOR ops V`.  Then `dispatch` on `V` returns, and its outcome is
`HANDLED` if and only if the callback of at least one attached handler returned
`HANDLED` in this invocation (its run from the state its predecessors left);
otherwise the outcome is `NOT_MINE`.  With no handler attached the outcome is
`NOT_MINE`, no callback is invoked and the state is untouched. -/
theorem dispatch_handled_iff_callback_handled {W : Type}
    (exec : Nat → Nat → Nat → W → Status × W) (MAX_VECTOR V : Nat) (ops : List RegOp)
    (σ0 : Registry) (w : W) (fuel : Nat)
    (h0 : IsInit σ0) (hV : V ≤ MAX_VECTOR)
    (hfuel : (specRun MAX_VECTOR ops V).length ≤ fuel) :
    ∃ res, dispatch exec MAX_VECTOR fuel V (runOps MAX_VECTOR ops σ0).reg w
        = some (Except.ok res)
      ∧ (res.outcome = Status.HANDLED ↔
          ∃ i, ∃ hi : i < (specRun MAX_VECTOR ops V).length,
            (exec (σ0.mem (specRun MAX_VECTOR ops V)[i]).f V
                (σ0.mem (specRun MAX_VECTOR ops V)[i]).data
                (((specRun MAX_VECTOR ops V).take i).foldl (stepWorld exec V σ0.mem) w)).1
              = Status.HANDLED)
      ∧ (res.outcome ≠ Status.HANDLED → res.outcome = Status.NOT_MINE)
      ∧ (specRun MAX_VECTOR ops V = [] →
          res.outcome = Status.NOT_MINE ∧ res.calls = [] ∧ res.world = w) := by
  obtain ⟨hinv, hpay⟩ := runOps_inv MAX_VECTOR ops σ0 h0
  have hroll : (runOps MAX_VECTOR ops σ0).roll V = specRun MAX_VECTOR ops V :=
    congrFun (runOps_roll MAX_VECTOR ops σ0 h0) V
  have hwalk : forEach fuel (runOps MAX_VECTOR ops σ0).reg V
      = some (specRun MAX_VECTOR ops V) := by
    rw [← hroll]
    exact forEach_roll (runOps MAX_VECTOR ops σ0) hinv V fuel (by rw [hroll]; exact hfuel)
  have hV1 : ¬ MAX_VECTOR < V := by omega
  have hsw := stepWorld_congr exec V (runOps MAX_VECTOR ops σ0).reg.mem σ0.mem hpay
  have hiff := runHandlers_handled_iff exec V (runOps MAX_VECTOR ops σ0).reg.mem
    (specRun MAX_VECTOR ops V) w
  obtain ⟨_, halt⟩ := runHandlers_outcome exec V (runOps MAX_VECTOR ops σ0).reg.mem
    (specRun MAX_VECTOR ops V) w
  refine ⟨runHandlers exec V (runOps MAX_VECTOR ops σ0).reg.mem
    (specRun MAX_VECTOR ops V) w, by simp only [dispatch, hV1, hwalk, if_false],
    ?_, ?_, ?_⟩
  · rw [hiff, hsw]
    constructor
    · rintro ⟨i, hi, h⟩
      refine ⟨i, hi, ?_⟩
      rw [← (hpay _).1, ← (hpay _).2]
      exact h
    · rintro ⟨i, hi, h⟩
      refine ⟨i, hi, ?_⟩
      rw [(hpay _).1, (hpay _).2]
      exact h
  · intro hne
    rcases halt with h | h
    · exact absurd h hne
    · exact h
  · intro hnil
    rw [hnil]
    exact ⟨rfl, rfl, rfl⟩

theorem dispatch_handled_iff_callback_handled_witness :
    (∃ res, dispatch sampleExec 15 3 5 (runOps 15 sampleOps initRegistry).reg 0
        = some (Except.ok res)
      ∧ (res.outcome = Status.HANDLED ↔
          ∃ i, ∃ hi : i < (specRun 15 sampleOps 5).length,
            (sampleExec (initRegistry.mem (specRun 15 sampleOps 5)[i]).f 5
                (initRegistry.mem (specRun 15 sampleOps 5)[i]).data
                (((specRun 15 sampleOps 5).take i).foldl
                  (stepWorld sampleExec 5 initRegistry.mem) 0)).1 = Status.HANDLED)
      ∧ (res.outcome ≠ Status.HANDLED → res.outcome = Status.NOT_MINE)
      ∧ (specRun 15 sampleOps 5 = [] →
          res.outcome = Status.NOT_MINE ∧ res.calls = [] ∧ res.world = 0))
      ∧ specRun 15 sampleOps 7 = [40]
      ∧ dispatch sampleExec 15 1 7 (runOps 15 sampleOps initRegistry).reg 0
          = some (Except.ok ⟨Status.NOT_MINE, 0, [(40, Status.NOT_MINE)], 1⟩)
      ∧ specRun 15 sampleOps 9 = []
      ∧ dispatch sampleExec 15 0 9 (runOps 15 sampleOps initRegistry).reg 0
          = some (Except.ok ⟨Status.NOT_MINE, 0, [], 0⟩) :=
  ⟨dispatch_handled_iff_callback_handled sampleExec 15 5 sampleOps initRegistry 0 3
    ⟨fun _ => rfl, fun _ => ⟨rfl, rfl⟩⟩ (by decide) (by decide), by decide, rfl, by decide, rfl⟩

/-- Claim C6.  The reserved vector numbers `SYSTICK_IRQ` (0), `SYSCALL_IRQ`
(0x80) and `TLB_IRQ` (0x81) are non-negative and pairwise distinct.  Hence, in
every registry reached from system init by calls of `attach` and `detach`, a
handler registered on one of them and a handler registered on another one are
different records, carry different vector numbers `n`, and never share a
chain: no walk of any chain meets both. -/
theorem reserved_vectors_separate_chains :
    (SYSTICK_IRQ = 0 ∧ SYSCALL_IRQ = 0x80 ∧ TLB_IRQ = 0x81)
      ∧ (0 ≤ SYSTICK_IRQ ∧ 0 ≤ SYSCALL_IRQ ∧ 0 ≤ TLB_IRQ)
      ∧ (SYSTICK_IRQ ≠ SYSCALL_IRQ ∧ SYSTICK_IRQ ≠ TLB_IRQ ∧ SYSCALL_IRQ ≠ TLB_IRQ)
      ∧ ∀ (MAX_VECTOR : Nat) (ops : List RegOp) (σ0 : Registry), IsInit σ0 →
          ∀ a ∈ [SYSTICK_IRQ, SYSCALL_IRQ, TLB_IRQ], ∀ b ∈ [SYSTICK_IRQ, SYSCALL_IRQ, TLB_IRQ],
            a ≠ b →
          ∀ r1 r2 : Nat, r1 ∈ specRun MAX_VECTOR ops a.toNat →
            r2 ∈ specRun MAX_VECTOR ops b.toNat →
            r1 ≠ r2
              ∧ (((runOps MAX_VECTOR ops σ0).reg.mem r1).n = a.toNat
                  ∧ ((runOps MAX_VECTOR ops σ0).reg.mem r2).n = b.toNat
                  ∧ a.toNat ≠ b.toNat)
              ∧ (∃ fa fb, forEach fa (runOps MAX_VECTOR ops σ0).reg a.toNat
                    = some (specRun MAX_VECTOR ops a.toNat)
                  ∧ forEach fb (runOps MAX_VECTOR ops σ0).reg b.toNat
                    = some (specRun MAX_VECTOR ops b.toNat))
              ∧ ∀ (U fuel : Nat) (L : List Nat),
                  forEach fuel (runOps MAX_VECTOR ops σ0).reg U = some L →
                  ¬ (r1 ∈ L ∧ r2 ∈ L) := by
  refine ⟨⟨rfl, rfl, rfl⟩, ⟨by decide, by decide, by decide⟩,
    ⟨by decide, by decide, by decide⟩, ?_⟩
  intro MAX_VECTOR ops σ0 h0 a ha b hb hab r1 r2 h1 h2
  obtain ⟨hinv, _⟩ := runOps_inv MAX_VECTOR ops σ0 h0
  have hroll := runOps_roll MAX_VECTOR ops σ0 h0
  rw [← hroll] at h1 h2
  have hnat : a.toNat ≠ b.toNat := by
    simp only [SYSTICK_IRQ, SYSCALL_IRQ, TLB_IRQ, List.mem_cons, List.mem_singleton,
      List.not_mem_nil, or_false] at ha hb
    rcases ha with rfl | rfl | rfl <;> rcases hb with rfl | rfl | rfl <;>
      first
        | exact absurd rfl hab
        | decide
  have hn1 := hinv.2.1 a.toNat r1 h1
  have hn2 := hinv.2.1 b.toNat r2 h2
  refine ⟨?_, ⟨hn1, hn2, hnat⟩, ?_, ?_⟩
  · intro e
    subst e
    exact hnat (hn1.symm.trans hn2)
  · refine ⟨(specRun MAX_VECTOR ops a.toNat).length, (specRun MAX_VECTOR ops b.toNat).length,
      ?_, ?_⟩
    · rw [← hroll]
      exact forEach_roll (runOps MAX_VECTOR ops σ0) hinv a.toNat _ (Nat.le_refl _)
    · rw [← hroll]
      exact forEach_roll (runOps MAX_VECTOR ops σ0) hinv b.toNat _ (Nat.le_refl _)
  · intro U fuel L hL hboth
    have hLU := forEach_some_roll (runOps MAX_VECTOR ops σ0) hinv U fuel L hL
    subst hLU
    have e1 := hinv.2.1 U r1 hboth.1
    have e2 := hinv.2.1 U r2 hboth.2
    exact hnat ((hn1.symm.trans e1).trans (e2.symm.trans hn2))

theorem reserved_vectors_separate_chains_witness :
    (10 ≠ 20
      ∧ (((runOps 255 reservedOps initRegistry).reg.mem 10).n = SYSTICK_IRQ.toNat
          ∧ ((runOps 255 reservedOps initRegistry).reg.mem 20).n = SYSCALL_IRQ.toNat
          ∧ SYSTICK_IRQ.toNat ≠ SYSCALL_IRQ.toNat)
      ∧ (∃ fa fb, forEach fa (runOps 255 reservedOps initRegistry).reg SYSTICK_IRQ.toNat
            = some (specRun 255 reservedOps SYSTICK_IRQ.toNat)
          ∧ forEach fb (runOps 255 reservedOps initRegistry).reg SYSCALL_IRQ.toNat
            = some (specRun 255 reservedOps SYSCALL_IRQ.toNat))
      ∧ ∀ (U fuel : Nat) (L : List Nat),
          forEach fuel (runOps 255 reservedOps initRegistry).reg U = some L →
          ¬ (10 ∈ L ∧ 20 ∈ L))
      ∧ forEach 2 (runOps 255 reservedOps initRegistry).reg 0 = some [10, 11]
      ∧ forEach 1 (runOps 255 reservedOps initRegistry).reg 0x80 = some [20]
      ∧ forEach 1 (runOps 255 reservedOps initRegistry).reg 0x81 = some [30] :=
  ⟨reserved_vectors_separate_chains.2.2.2 255 reservedOps initRegistry
    ⟨fun _ => rfl, fun _ => ⟨rfl, rfl⟩⟩ SYSTICK_IRQ (by simp) SYSCALL_IRQ (by simp)
    (by decide) 10 20
    (by rw [← runOps_roll 255 reservedOps initRegistry ⟨fun _ => rfl, fun _ => ⟨rfl, rfl⟩⟩]
        decide)
    (by rw [← runOps_roll 255 reservedOps initRegistry ⟨fun _ => rfl, fun _ => ⟨rfl, rfl⟩⟩]
        decide), rfl, rfl, rfl⟩

end PhoenixHal
